import Mathlib

/-!
Shallow embedding of the `libbsb` crate (repository `chartr`), covering the
BSB/KAP run-length codec (`src/libbsb/src/image/compress.rs`,
`src/libbsb/src/image/decompress.rs`), the container write path
(`src/libbsb/src/image/mod.rs`, `into_file`), the index reader
(`src/libbsb/src/image/index.rs`), the post-header read path
(`from_reader`), `KapImageFile::new` / `BitMap::new`
(`src/libbsb/src/image/bitmap.rs`), `as_palette_iter`, and the
outcome-relevant control flow of the header text parsing
(`src/libbsb/src/serde`).

Machine integers are modelled as `Nat`, with an explicit `% 2 ^ w` at the
places where the Rust operation truncates bits (`<<` on `u8`/`u16` discards
shifted-out bits).  Fallible Rust code becomes `Option`/`Except`; Rust
panics are modelled as a distinguished outcome where a claim depends on
them.

Rust `while`/recursion whose measure is not a structural argument is
embedded with an explicit `fuel` argument that the wrapper instantiates
with the loop's iteration bound; every `fuel = 0` fallback is unreachable
from the wrapper (each comment states the invariant), so the wrapper
computes exactly the Rust loop.  This keeps every definition structurally
recursive, hence executable by the kernel.
-/

namespace Chartr

instance {ε α : Type} [DecidableEq ε] [DecidableEq α] : DecidableEq (Except ε α) :=
  fun a b =>
    match a, b with
    | .ok x, .ok y =>
      if h : x = y then isTrue (by rw [h]) else isFalse (fun hh => h (by injection hh))
    | .error x, .error y =>
      if h : x = y then isTrue (by rw [h]) else isFalse (fun hh => h (by injection hh))
    | .ok _, .error _ => isFalse (fun hh => Except.noConfusion hh)
    | .error _, .ok _ => isFalse (fun hh => Except.noConfusion hh)

/-- The non-recursive tail of `bsb_compress_nb` (compress.rs lines 15-24):
`pixel |= u8::try_from(nb).unwrap_or(u8::MAX)` (the cap is `min nb 255`),
a `0x80` guard byte when the byte to emit would be `0`, then the byte. -/
def bsb_compress_nb_emit (nb pixel : Nat) : List Nat :=
  let pixel := pixel ||| min nb 255
  if pixel = 0 then [0x80, pixel] else [pixel]

/-- Recursive core of `bsb_compress_nb` (compress.rs lines 5-25).  The Rust
recursion is on `nb >> 7`, which strictly decreases while `nb > max`;
`fuel ≥ nb` bounds its depth, so the `fuel = 0` arm is only reached with
`nb = 0 ≤ max`, where it agrees with the Rust base case. -/
def bsb_compress_nb_go (max : Nat) : Nat → Nat → Nat → List Nat
  | 0, nb, pixel => bsb_compress_nb_emit nb pixel
  | fuel + 1, nb, pixel =>
    if nb > max then
      bsb_compress_nb_go max fuel (nb >>> 7) (pixel ||| 0x80) ++
        [(nb &&& 0x7F) ||| (pixel &&& 0x80)]
    else bsb_compress_nb_emit nb pixel

/-- Embeds `bsb_compress_nb` (compress.rs lines 5-25).  The Rust function
pushes bytes onto `buf_out` and returns how many it pushed; here we return
the pushed bytes themselves (the count is their length).  `nb` and `max`
are `u16`, `pixel` is `u8`. -/
def bsb_compress_nb (nb pixel max : Nat) : List Nat :=
  bsb_compress_nb_go max nb nb pixel

/-- Core of the inner run-counting loop of `compress_bsb_row`
(compress.rs lines 53-57), counting indices `j ≥ i` with `j < width_in` and
`row[j] = last` up to the first mismatch.  With `fuel = width_in - i` the
`fuel = 0` arm coincides with the loop guard `i < width_in` failing.
Rust indexes `to_compress[j]`; every call site has `width_in = row.length`,
so the `getD` default is never consulted. -/
def run_len_go (row : List Nat) (width_in last : Nat) : Nat → Nat → Nat
  | 0, _ => 0
  | fuel + 1, i =>
    if i < width_in ∧ row.getD i 0 = last then run_len_go row width_in last fuel (i + 1) + 1
    else 0

/-- The run length counted from index `i` (not including the run's first
pixel, which the outer loop has already consumed — exactly the Rust
`run_length`). -/
def run_len (row : List Nat) (width_in last i : Nat) : Nat :=
  run_len_go row width_in last (width_in - i) i

/-- Core of the outer loop of `compress_bsb_row` (compress.rs lines 45-73),
returning the run bytes emitted from pixel index `ipixel_in` on.  Each
iteration consumes at least one pixel, so `fuel = width_in - ipixel_in`
bounds the iterations and the `fuel = 0` arm (reachable only when the loop
guard fails) returns like the loop exit.  The Rust expression
`width_out / (width_in << 1)` divides by `(width_in << 1)` truncated to
`u16`; when that is zero Rust panics (division by zero), modelled as
`none`.  `u16` shifts truncate, hence `% 65536`; `saturating_mul` caps at
`65535`; `u8::try_from(last_pixel << dec)` caps at `255`. -/
def compress_row_loop_go (row : List Nat) (width_in width_out dec max : Nat) :
    Nat → Nat → Nat → Option (List Nat)
  | 0, _, _ => some []
  | fuel + 1, ipixel_in, ipixel_out =>
    if ipixel_in < width_in then
      let last_pixel := row.getD ipixel_in 0
      let run_length := run_len row width_in last_pixel (ipixel_in + 1)
      let i2 := ipixel_in + 1 + run_length
      let o2 := ipixel_out + 1 + run_length
      if (width_in <<< 1) % 65536 = 0 then none
      else
        let xout := min (((i2 <<< 1) % 65536 + 1) * (width_out / ((width_in <<< 1) % 65536)))
          65535
        let rl2 := if xout > o2 then run_length + (xout - o2) else run_length
        let o3 := if xout > o2 then xout else o2
        (compress_row_loop_go row width_in width_out dec max fuel i2 o3).map
          (fun rest => bsb_compress_nb rl2 (min (last_pixel <<< dec) 255) max ++ rest)
    else some []

/-- The run-emitting loop of `compress_bsb_row`, started at pixel 0. -/
def compress_row_loop (row : List Nat) (width_in width_out dec max : Nat) :
    Option (List Nat) :=
  compress_row_loop_go row width_in width_out dec max width_in 0 0

/-- Embeds `compress_bsb_row` (compress.rs lines 28-76): the variable-length
line number, the encoded runs, and the literal `0x00` row terminator. -/
def compress_bsb_row (to_compress : List Nat) (depth line_number width_in width_out : Nat) :
    Option (List Nat) :=
  let dec := 7 - depth
  let max := (1 <<< dec) - 1
  (compress_row_loop to_compress width_in width_out dec max).map
    (fun runs => bsb_compress_nb line_number 0 0x7F ++ runs ++ [0])

/-- Embeds the `while c & 0x80 != 0` continuation loop of
`bsb_decompress_nb` (decompress.rs lines 170-173).  `c` is the byte read
last; `count` is a `u16`, so `count << 7` truncates (`% 65536`); the
subsequent addition of a 7-bit value cannot overflow `u16`.  Running out of
bytes models `fgetkapc`'s `Unexpected stream end` error. -/
def decompress_nb_loop (c count : Nat) (stream : List Nat) : Option (Nat × List Nat) :=
  if c &&& 0x80 = 0 then some (count, stream)
  else
    match stream with
    | [] => none
    | c2 :: rest => decompress_nb_loop c2 ((count <<< 7) % 65536 + (c2 &&& 0x7F)) rest

/-- Embeds `bsb_decompress_nb` (decompress.rs lines 159-175): returns
`(count + 1, pixel, unconsumed stream)`.  `u8::try_from(count >> decin)`
caps at `255` (never reached: `count ≤ 0x7F` at that point).  The final
`count + 1` is a `u16` addition in Rust; it stays below `2 ^ 16` on every
stream produced by the compressor, which is all the verified uses. -/
def bsb_decompress_nb (stream : List Nat) (decin maxin : Nat) :
    Option (Nat × Nat × List Nat) :=
  match stream with
  | [] => none
  | c :: rest =>
    let count := c &&& 0x7F
    let pixel := min (count >>> decin) 255
    (decompress_nb_loop c (count &&& maxin) rest).map (fun p => (p.1 + 1, pixel, p.2))

theorem bsb_decompress_nb_pos {stream : List Nat} {decin maxin : Nat}
    {r : Nat × Nat × List Nat} (h : bsb_decompress_nb stream decin maxin = some r) :
    0 < r.1 := by
  cases stream with
  | nil => simp [bsb_decompress_nb] at h
  | cons c rest =>
    simp only [bsb_decompress_nb, Option.map_eq_some'] at h
    obtain ⟨p, -, rfl⟩ := h
    exact Nat.succ_pos _

/-- Writes `count` copies of `v` into `buf` at successive positions starting
at `xout`, returning the new buffer and position: the
`while count != 0 { buf[xout] = v; xout += 1; count -= 1 }` deposit loops of
the depth-4 and depth-7 `decompress_bsb_row_loop` impls
(decompress.rs lines 106-116 and 137-141).  Rust panics when `xout` runs
past the buffer; `List.set` ignores such writes (never reached in the
verified uses, where the deposits stay inside the row). -/
def write_run (buf : List Nat) (v xout count : Nat) : List Nat × Nat :=
  match count with
  | 0 => (buf, xout)
  | c + 1 => write_run (buf.set xout v) v (xout + 1) c

/-- Embeds the single bit-packing write of the depth-1
`decompress_bsb_row_loop` (decompress.rs line 82):
`buf[xout >> 3] |= pixel << (7 - (xout & 0x7))` with the `u8` shift
truncating to a byte. -/
def deposit_one (buf : List Nat) (pixel xout : Nat) : List Nat :=
  buf.set (xout >>> 3) ((buf.getD (xout >>> 3) 0) ||| ((pixel <<< (7 - (xout &&& 0x7))) % 256))

/-- Depth-1 deposit loop: `count` single-bit deposits from `xout` on. -/
def write_run_one (buf : List Nat) (pixel xout count : Nat) : List Nat × Nat :=
  match count with
  | 0 => (buf, xout)
  | c + 1 => write_run_one (deposit_one buf pixel xout) pixel (xout + 1) c

/-- Core of `Decompressor::<1>::decompress_bsb_row_loop`
(decompress.rs lines 64-89).  Every decoded count is at least 1, so
`image_width` shrinks every iteration and `fuel = image_width` bounds the
loop; the `fuel = 0` arm is reached only with `image_width = 0`, where it
agrees with the loop exit. -/
def decompress_loop_one_go (decin maxin : Nat) :
    Nat → List Nat → List Nat → Nat → Nat → Option (List Nat)
  | 0, buf, _, image_width, _ => if image_width = 0 then some buf else none
  | fuel + 1, buf, stream, image_width, xout =>
    if image_width = 0 then some buf
    else
      match bsb_decompress_nb stream decin maxin with
      | none => none
      | some (count, pixel, rest) =>
        let c := min count image_width
        let bx := write_run_one buf pixel xout c
        decompress_loop_one_go decin maxin fuel bx.1 rest (image_width - c) bx.2

/-- Embeds `Decompressor::<1>::decompress_bsb_row_loop`
(decompress.rs lines 64-89). -/
def decompress_loop_one (buf stream : List Nat) (image_width decin maxin : Nat) :
    Option (List Nat) :=
  decompress_loop_one_go decin maxin image_width buf stream image_width 0

/-- Core of `Decompressor::<4>::decompress_bsb_row_loop`
(decompress.rs lines 90-120): deposits `pixel & 0x0F`, one byte per pixel.
Fuel as in `decompress_loop_one_go`. -/
def decompress_loop_four_go (decin maxin : Nat) :
    Nat → List Nat → List Nat → Nat → Nat → Option (List Nat)
  | 0, buf, _, image_width, _ => if image_width = 0 then some buf else none
  | fuel + 1, buf, stream, image_width, xout =>
    if image_width = 0 then some buf
    else
      match bsb_decompress_nb stream decin maxin with
      | none => none
      | some (count, pixel, rest) =>
        let c := min count image_width
        let bx := write_run buf (pixel &&& 0x0F) xout c
        decompress_loop_four_go decin maxin fuel bx.1 rest (image_width - c) bx.2

/-- Embeds `Decompressor::<4>::decompress_bsb_row_loop`
(decompress.rs lines 90-120). -/
def decompress_loop_four (buf stream : List Nat) (image_width decin maxin : Nat) :
    Option (List Nat) :=
  decompress_loop_four_go decin maxin image_width buf stream image_width 0

/-- Core of `Decompressor::<7>::decompress_bsb_row_loop`
(decompress.rs lines 121-145): deposits the full `pixel` byte.
Fuel as in `decompress_loop_one_go`. -/
def decompress_loop_seven_go (decin maxin : Nat) :
    Nat → List Nat → List Nat → Nat → Nat → Option (List Nat)
  | 0, buf, _, image_width, _ => if image_width = 0 then some buf else none
  | fuel + 1, buf, stream, image_width, xout =>
    if image_width = 0 then some buf
    else
      match bsb_decompress_nb stream decin maxin with
      | none => none
      | some (count, pixel, rest) =>
        let c := min count image_width
        let bx := write_run buf pixel xout c
        decompress_loop_seven_go decin maxin fuel bx.1 rest (image_width - c) bx.2

/-- Embeds `Decompressor::<7>::decompress_bsb_row_loop`
(decompress.rs lines 121-145). -/
def decompress_loop_seven (buf stream : List Nat) (image_width decin maxin : Nat) :
    Option (List Nat) :=
  decompress_loop_seven_go decin maxin image_width buf stream image_width 0

/-- Embeds `BsbDecompressor::decompress_bsb_row` (decompress.rs lines 6-27)
together with the per-depth trait dispatch: decode the line number
(`decin = 0`, `max = 0x7F`), then run the depth's deposit loop over the
remaining stream into `buf`.  Returns `(line_number, row buffer)`.  The
trait is only implemented for depths 1, 4 and 7, so other depths have no
decompressor (`none`).  The `pixel` variable set by the line-number decode
is overwritten by the loop before any use and is dropped here. -/
def decompress_bsb_row (DEPTH : Nat) (buf stream : List Nat) (width : Nat) :
    Option (Nat × List Nat) :=
  let decin := 7 - DEPTH
  let maxin := (1 <<< decin) - 1
  match bsb_decompress_nb stream 0 0x7F with
  | none => none
  | some (line_number, _px, rest) =>
    (match DEPTH with
     | 1 => decompress_loop_one buf rest width decin maxin
     | 4 => decompress_loop_four buf rest width decin maxin
     | 7 => decompress_loop_seven buf rest width decin maxin
     | _ => none).map (fun row => (line_number, row))

/-! Container write path: `KapImageFile::into_file` (image/mod.rs lines 228-268). -/

/-- Embeds `Depth` (image/mod.rs lines 66-78). -/
inductive Depth where
  | One
  | Four
  | Seven
deriving DecidableEq

/-- Embeds `impl From<Depth> for u8` (image/mod.rs lines 314-322). -/
def Depth.toU8 : Depth → Nat
  | .One => 1
  | .Four => 4
  | .Seven => 7

/-- Embeds `u32::to_be_bytes` for a value already truncated to `u32`. -/
def toBE32 (n : Nat) : List Nat :=
  [(n >>> 24) % 256, (n >>> 16) % 256, (n >>> 8) % 256, n % 256]

/-- Row `y` of the bitmap buffer: `BitMap::get_row_mut` (bitmap.rs
lines 83-91) yields `pixels[y*width .. y*width+width]` when `y < height`. -/
def bitmap_row (pixels : List Nat) (width y : Nat) : List Nat :=
  (pixels.drop (y * width)).take width

/-- Core of the `while let Some(row) = self.bitmap.get_row_mut(i)` loop of
`into_file` (image/mod.rs lines 249-257): the compressed bytes of rows
`i, …, height-1`, each compressed with its row index as the line number and
`width_out = width_in`.  With `fuel = height - i` the `fuel = 0` arm
coincides with `get_row_mut` returning `None`. -/
def into_file_rows_go (pixels : List Nat) (width height depth : Nat) :
    Nat → Nat → Option (List (List Nat))
  | 0, _ => some []
  | fuel + 1, i =>
    if i < height then
      match compress_bsb_row (bitmap_row pixels width i) depth i width width with
      | none => none
      | some b => (into_file_rows_go pixels width height depth fuel (i + 1)).map (b :: ·)
    else some []

/-- The compressed bytes of all `height` rows. -/
def into_file_rows (pixels : List Nat) (width height depth : Nat) :
    Option (List (List Nat)) :=
  into_file_rows_go pixels width height depth height 0

/-- The row offsets captured by `into_file`: the stream position before each
row is written, plus the final position (the start of the index table).
`offsets_from pos rows` lists `pos`, `pos + |rows[0]|`, … and has
`rows.length + 1` entries. -/
def offsets_from (pos : Nat) : List (List Nat) → List Nat
  | [] => [pos]
  | r :: rs => pos :: offsets_from (pos + r.length) rs

/-- Embeds `KapImageFile::into_file` (image/mod.rs lines 228-268) as the
byte string written to the file.  `header_bytes` stands for the serialised
header text `self.header.into_header_format().as_bytes()` (its contents do
not affect the raster/index layout).  After the header come
`{CTRL_Z, 0x00, depth}`, the compressed rows, and every captured offset as
a big-endian `u32`, truncated to `u32::MAX` when larger
(`u32::try_from(i).unwrap_or(u32::MAX)`).  The `ensure!(depth <= 7)` check
always passes since `depth = u8::from(self.header.ifm) ∈ {1,4,7}`.  The
header width/height equal the bitmap's by the `KapImageFile` invariant, so
a single `width`/`height` is taken. -/
def into_file (header_bytes : List Nat) (ifm : Depth) (width height : Nat)
    (pixels : List Nat) : Option (List Nat) :=
  let depth := ifm.toU8
  if depth ≤ 7 then
    match into_file_rows pixels width height depth with
    | none => none
    | some rows =>
      some (header_bytes ++ [0x1A, 0x00, depth] ++ rows.flatten ++
        (offsets_from (header_bytes.length + 3) rows).flatMap
          (fun o => toBE32 (min o 4294967295)))
  else none

/-! Container read path: `read_index` (image/index.rs) and the post-header
part of `KapImageFile::from_reader` (image/mod.rs lines 152-210). -/

/-- Errors and panics that the read path can produce.  `ensureFailed` is an
`anyhow::ensure!` message, `invalidIndexSize` is the
`io::Error(InvalidData, "Invalid index table size")` of `read_index`,
`ioEndOfStream` a failed `read_exact`/`seek`, `otherMsg` the
`Error::Other(..)` values, `unsupportedDepth` mirrors
`Error::UnsupportedDepth` of error.rs (declared there, constructed nowhere
in the crate), and `panicked` marks a Rust panic (`unimplemented!`), which
is not an error value at all. -/
inductive ReadErr where
  | ensureFailed (msg : String)
  | invalidIndexSize
  | ioEndOfStream
  | otherMsg (msg : String)
  | unsupportedDepth (v : Nat)
  | panicked (msg : String)
deriving DecidableEq

/-- Reads a big-endian `u32` from `file` at byte position `pos`
(`read_exact` of 4 bytes followed by `u32::from_be_bytes`); `none` at end
of stream. -/
def read_be32_at (file : List Nat) (pos : Nat) : Option Nat :=
  if pos + 4 ≤ file.length then
    some ((file.getD pos 0) * 16777216 + (file.getD (pos + 1) 0) * 65536 +
      (file.getD (pos + 2) 0) * 256 + file.getD (pos + 3) 0)
  else none

/-- Reads `count` consecutive big-endian `u32` values starting at `pos`:
the index-table loop of `read_index` (index.rs lines 27-31). -/
def read_be32_list (file : List Nat) (pos count : Nat) : Option (List Nat) :=
  match count with
  | 0 => some []
  | c + 1 =>
    match read_be32_at file pos with
    | none => none
    | some v => (read_be32_list file (pos + 4) c).map (v :: ·)

/-- Embeds `read_index` (index.rs lines 5-34).  `end_of_index` is the
position 4 bytes before the end (`seek(End(-4))`, an io error when the file
is shorter than 4 bytes); the last 4 bytes name `start_of_index`; the only
size check is `(end_of_index - start_of_index) / 4 == height` with
truncating division.  The `u64` subtraction (index.rs line 16) wraps
modulo `2^64` in release builds; it is modelled as
`(end_of_index + 2^64 - start_of_index) % 2^64`, which is the wrapping
difference whenever `start_of_index < 2^64` — and a value read as a
big-endian `u32` from 4 bytes of an actual byte stream is below `2^32`.
A debug build would panic on `start_of_index > end_of_index` instead of
wrapping; on either semantics that case never reaches the `Ok` arm, since
the wrapped quotient is either not `height` (the `InvalidIndexSize` error)
or so large that the index read runs off the end of the stream. -/
def read_index (file : List Nat) (height : Nat) : Except ReadErr (List Nat × Nat) :=
  if file.length < 4 then .error .ioEndOfStream
  else
    let end_of_index := file.length - 4
    match read_be32_at file end_of_index with
    | none => .error .ioEndOfStream
    | some start_of_index =>
      if ((end_of_index + 18446744073709551616 - start_of_index)
            % 18446744073709551616) / 4 ≠ height then .error .invalidIndexSize
      else
        match read_be32_list file start_of_index height with
        | none => .error .ioEndOfStream
        | some index => .ok (index, start_of_index)

/-- Position just past the first occurrence of `delim` at or after `start`:
`BufRead::read_until(delim)` consumes up to and including the delimiter, or
to end of stream when absent. -/
def read_until_pos (file : List Nat) (delim start : Nat) : Nat :=
  match (file.drop start).findIdx? (· = delim) with
  | some i => start + i + 1
  | none => file.length

/-- The header fields consulted by the post-header read path: `ifm` and
`general_parameters.image_width_height` of the parsed `ImageHeader`. -/
structure HeaderInfo where
  ifm : Depth
  width : Nat
  height : Nat
deriving DecidableEq

/-- Embeds `decompress_bsb_from_reader` (decompress.rs lines 38-59): for
each index entry, seek there and decompress one row into a fresh
all-zero row buffer of the bitmap (`BitMap::empty`).  A decode failure is
`Error::Other("Unexpected stream end")`. -/
def decompress_rows (DEPTH : Nat) (file : List Nat) (width : Nat) :
    List Nat → Except ReadErr (List (List Nat))
  | [] => .ok []
  | off :: rest =>
    match decompress_bsb_row DEPTH (List.replicate width 0) (file.drop off) width with
    | none => .error (.otherMsg "Unexpected stream end")
    | some lr => (decompress_rows DEPTH file width rest).map (lr.2 :: ·)

/-- Embeds `KapImageFile::from_reader` (image/mod.rs lines 152-210) from
the point where the header text has been parsed; `hdr` stands for the
parsed `ImageHeader` (header text parsing is modelled separately).  Steps:
`read_until(CTRL_Z)` (the header bytes), `read_until(0x00)`, read one depth
byte (a read at end of stream leaves the `[0]` buffer untouched, hence
`getD _ 0`), `ensure!(u8::from(header.ifm) == depth)`, read the trailing
index, then decompress each row; a depth outside `{1,4,7}` would hit
`unimplemented!` (a panic), but the `ensure!` makes that arm unreachable.
Returns the decompressed bitmap rows. -/
def from_reader_model (file : List Nat) (hdr : HeaderInfo) :
    Except ReadErr (List (List Nat)) :=
  let i1 := read_until_pos file 0x1A 0
  let i2 := read_until_pos file 0x00 i1
  let depth := file.getD i2 0
  if hdr.ifm.toU8 ≠ depth then
    .error (.ensureFailed "Kap image file must contain image depth")
  else
    match read_index file hdr.height with
    | .error e => .error e
    | .ok ir =>
      match depth with
      | 1 => decompress_rows 1 file hdr.width ir.1
      | 4 => decompress_rows 4 file hdr.width ir.1
      | 7 => decompress_rows 7 file hdr.width ir.1
      | _ => .error (.panicked "not implemented: Only 1, 4, and 7 pixel depth is supported by KAP/BSB")

/-! Construction: `BitMap::new` (bitmap.rs lines 16-26) and
`KapImageFile::new` (image/mod.rs lines 103-117). -/

/-- Embeds `libbsb::Error` (error.rs).  `Parse`/`IO` payloads are elided;
`mismatchWidthHeight` carries the same three fields as the Rust variant. -/
inductive LibError where
  | parse
  | io
  | mismatchWidthHeight (header : Nat × Nat) (header_calculated raster_length : Nat)
  | unsupportedDepth (v : Nat)
  | nonExistentPalette
  | other (msg : String)
deriving DecidableEq

/-- Result of a Rust call that may return a value, return an error value,
or panic (out-of-band). -/
inductive Outcome (ε α : Type) where
  | ok (a : α)
  | err (e : ε)
  | panic (msg : String)
deriving DecidableEq

def Outcome.isPanic {ε α : Type} : Outcome ε α → Bool
  | .panic _ => true
  | _ => false

/-- Embeds `BitMap` (bitmap.rs lines 6-13). -/
structure BitMap where
  width : Nat
  height : Nat
  pixels : List Nat
deriving DecidableEq

/-- Embeds `BitMap::new` (bitmap.rs lines 16-26): a width/height/length
mismatch is a `panic!()`, not an error value. -/
def BitMap.new (width height : Nat) (data : List Nat) : Outcome LibError BitMap :=
  if width * height ≠ data.length then
    .panic "Provided width/height does not match data length"
  else .ok ⟨width, height, data⟩

/-- Embeds `KapImageFile` (image/mod.rs lines 40-43); the header portion is
`HeaderInfo` (the fields this path reads). -/
structure KapImage where
  header : HeaderInfo
  bitmap : BitMap
deriving DecidableEq

/-- Embeds `KapImageFile::new` (image/mod.rs lines 103-117): raster length
different from `width * height` is `Error::MismatchWidthHeight`; otherwise
the bitmap is built by `BitMap::new` (whose panic is guarded by the check
just made). -/
def KapImageFile_new (hdr : HeaderInfo) (raster_data : List Nat) :
    Outcome LibError KapImage :=
  if raster_data.length ≠ hdr.width * hdr.height then
    .err (.mismatchWidthHeight (hdr.width, hdr.height) (hdr.width * hdr.height)
      raster_data.length)
  else
    match BitMap.new hdr.width hdr.height raster_data with
    | .ok bm => .ok ⟨hdr, bm⟩
    | .err e => .err e
    | .panic msg => .panic msg

/-! Palette resolution: `KapImageFile::as_palette_iter`
(image/mod.rs lines 276-297). -/

/-- Embeds `ColorPalette` (image/mod.rs lines 45-64). -/
inductive ColorPalette where
  | Rgb | Day | Dsk | Ngt | Ngr | Gry | Prc | Prg
deriving DecidableEq

/-- The eight optional palettes of `ImageHeader` (header.rs): ordered
`(r, g, b)` triples. -/
structure HeaderPalettes where
  rgb : Option (List (Nat × Nat × Nat)) := none
  day : Option (List (Nat × Nat × Nat)) := none
  dsk : Option (List (Nat × Nat × Nat)) := none
  ngt : Option (List (Nat × Nat × Nat)) := none
  ngr : Option (List (Nat × Nat × Nat)) := none
  gry : Option (List (Nat × Nat × Nat)) := none
  prc : Option (List (Nat × Nat × Nat)) := none
  prg : Option (List (Nat × Nat × Nat)) := none

/-- The palette selection `match` of `as_palette_iter`. -/
def palette_of (h : HeaderPalettes) : ColorPalette → Option (List (Nat × Nat × Nat))
  | .Rgb => h.rgb
  | .Day => h.day
  | .Dsk => h.dsk
  | .Ngt => h.ngt
  | .Ngr => h.ngr
  | .Gry => h.gry
  | .Prc => h.prc
  | .Prg => h.prg

/-- Embeds `KapImageFile::as_palette_iter` (image/mod.rs lines 276-297):
a missing palette is the `context("get color palette")` error; otherwise
every pixel index `p` of the bitmap buffer maps, in order, to
`rgbs[p.saturating_sub(1)]`.  Rust indexing panics when the palette is too
short; `getD` defaults instead (the verified uses assume every index in
range, as the claim does). -/
def as_palette_iter (pals : HeaderPalettes) (pixels : List Nat) (palette : ColorPalette) :
    Except String (List (Nat × Nat × Nat)) :=
  match palette_of pals palette with
  | none => .error "get color palette"
  | some rgbs => .ok (pixels.map (fun bsb_p => rgbs.getD (bsb_p - 1) (0, 0, 0)))

/-! Header text parsing, modelled for its outcome (value returned, error
returned, or panic): `impl FromStr for ImageHeader` (serde/mod.rs
lines 372-395), `parse` (serde/record.rs lines 78-259) and the helpers of
serde/utils.rs.  The parsed field values themselves are not tracked; only
the control flow that decides between `Ok`, `Err` and a panic is embedded,
which is what claim-level error-handling statements are about. -/

def is_ascii_upper (c : Char) : Bool := 'A' ≤ c && c ≤ 'Z'

/-- Match of `RECORD_REGEX = [A-Z]{3}/|!` at the current position, with the
regex crate's leftmost-first alternation: the length of the match
(4 or 1), or `none`. -/
def record_match_len (s : List Char) : Option Nat :=
  match s with
  | a :: b :: c :: d :: _ =>
    if is_ascii_upper a && is_ascii_upper b && is_ascii_upper c && d = '/' then some 4
    else if a = '!' then some 1 else none
  | a :: _ => if a = '!' then some 1 else none
  | [] => none

theorem record_match_len_pos {s : List Char} {k : Nat} (h : record_match_len s = some k) :
    0 < k ∧ k ≤ s.length := by
  match s with
  | [] => simp [record_match_len] at h
  | [a] | [a, b] | [a, b, c] =>
    simp only [record_match_len] at h
    split at h <;> simp_all <;> omega
  | a :: b :: c :: d :: t =>
    simp only [record_match_len] at h
    split at h
    · simp_all; omega
    · split at h <;> simp_all <;> omega

/-- Non-overlapping scan of `Regex::find_iter`: at each position try the
pattern; on a match of length `k` record `(pos, pos + k)` and continue
after it, otherwise advance one character.  Every match has positive
length, so `fuel = s.length` bounds the scan and the `fuel = 0` arm is
reached only on the empty remainder. -/
def find_matches_go (ml : List Char → Option Nat) : Nat → List Char → Nat → List (Nat × Nat)
  | 0, _, _ => []
  | fuel + 1, s, pos =>
    match s with
    | [] => []
    | _ :: rest =>
      match ml s with
      | some k => (pos, pos + k) :: find_matches_go ml fuel (s.drop k) (pos + k)
      | none => find_matches_go ml fuel rest (pos + 1)

/-- All matches of `RECORD_REGEX` in `s`, as `(start, end)` pairs. -/
def find_record_matches (s : List Char) : List (Nat × Nat) :=
  find_matches_go record_match_len s.length s 0

/-- Embeds `get_boundaries` (serde/utils.rs lines 55-69): consecutive match
starts paired up, the last match paired with the input length. -/
def boundaries_of (ms : List (Nat × Nat)) (totalLen : Nat) : List (Nat × Nat) :=
  match ms with
  | [] => []
  | [m] => [(m.1, totalLen)]
  | m1 :: m2 :: rest => (m1.1, m2.1) :: boundaries_of (m2 :: rest) totalLen

/-- The record identifiers of `Record` (serde/record.rs lines 31-61) that
label a parse arm; `unknown` covers a 3-letter identifier that
`Record::from_str` rejects (warned about and skipped by `from_str`). -/
inductive RecordId where
  | VER | CRR | BSB | KNP | KNQ | CED | NTM | OST | IFM
  | RGB | DAY | DSK | NGT | NGR | REF | WPX | PWX | WPY | PWY
  | ERR | PLY | DTM | GRY | PRC | PRG | CPH | Comment
  | unknown
deriving DecidableEq

/-- Embeds `Record::from_str` (derived `EnumString`): the 3-letter
identifier before the `/`. -/
def record_from_str (s : List Char) : RecordId :=
  if s = ['V', 'E', 'R'] then .VER
  else if s = ['C', 'R', 'R'] then .CRR
  else if s = ['B', 'S', 'B'] then .BSB
  else if s = ['K', 'N', 'P'] then .KNP
  else if s = ['K', 'N', 'Q'] then .KNQ
  else if s = ['C', 'E', 'D'] then .CED
  else if s = ['N', 'T', 'M'] then .NTM
  else if s = ['O', 'S', 'T'] then .OST
  else if s = ['I', 'F', 'M'] then .IFM
  else if s = ['R', 'G', 'B'] then .RGB
  else if s = ['D', 'A', 'Y'] then .DAY
  else if s = ['D', 'S', 'K'] then .DSK
  else if s = ['N', 'G', 'T'] then .NGT
  else if s = ['N', 'G', 'R'] then .NGR
  else if s = ['R', 'E', 'F'] then .REF
  else if s = ['W', 'P', 'X'] then .WPX
  else if s = ['P', 'W', 'X'] then .PWX
  else if s = ['W', 'P', 'Y'] then .WPY
  else if s = ['P', 'W', 'Y'] then .PWY
  else if s = ['E', 'R', 'R'] then .ERR
  else if s = ['P', 'L', 'Y'] then .PLY
  else if s = ['D', 'T', 'M'] then .DTM
  else if s = ['G', 'R', 'Y'] then .GRY
  else if s = ['P', 'R', 'C'] then .PRC
  else if s = ['P', 'R', 'G'] then .PRG
  else if s = ['C', 'P', 'H'] then .CPH
  else .unknown

/-- Outcome of parsing one record or a whole header: `Ok(())`, one of the
`serde::error::Error` values, or a Rust panic. -/
inductive ParseOutcome where
  | ok
  | errMissingDepth
  | errMissingWidthHeight
  | panic (msg : String)
deriving DecidableEq

/-- Embeds nom's `digit1` over `&str`: the longest nonempty prefix of ASCII
digits, or a nom error. -/
def digit1_split (s : List Char) : Option (List Nat × List Char) :=
  let ds := s.takeWhile (·.isDigit)
  if ds = [] then none else some (ds.map (fun c => c.toNat - 48), s.drop ds.length)

def digits_to_nat (ds : List Nat) : Nat := ds.foldl (fun a d => a * 10 + d) 0

/-- Embeds `map_res(digit1, |s| s.parse::<u8>())`: leading digits whose
decimal value fits in `u8`, or a nom error. -/
def parse_u8_digits (s : List Char) : Option Nat :=
  match digit1_split s with
  | none => none
  | some (ds, _) => if digits_to_nat ds ≤ 255 then some (digits_to_nat ds) else none

/-- Embeds `map_res(digit1, |s| s.parse::<u16>())` followed by `,` followed
by the same again — `parse_num_tuple_u16` (serde/utils.rs lines 83-94). -/
def parse_num_tuple_u16 (s : List Char) : Option (Nat × Nat) :=
  match digit1_split s with
  | none => none
  | some (ds1, r1) =>
    if digits_to_nat ds1 ≤ 65535 then
      match r1 with
      | ',' :: r2 =>
        match digit1_split r2 with
        | none => none
        | some (ds2, _) =>
          if digits_to_nat ds2 ≤ 65535 then some (digits_to_nat ds1, digits_to_nat ds2)
          else none
      | _ => none
    else none

/-- Match of `FIELD_REGEX = [A-Z][A-Z1-9]=` at the current position. -/
def field_match_len (s : List Char) : Option Nat :=
  match s with
  | a :: b :: c :: _ =>
    if is_ascii_upper a && (is_ascii_upper b || ('1' ≤ b && b ≤ '9')) && c = '=' then some 3
    else none
  | _ => none

/-- All matches of `FIELD_REGEX` in `s`, as `(start, end)` pairs. -/
def find_field_matches (s : List Char) : List (Nat × Nat) :=
  find_matches_go field_match_len s.length s 0

def slice (cs : List Char) (start stop : Nat) : List Char :=
  (cs.drop start).take (stop - start)

/-- Embeds `parse_general_parameters` (serde/record.rs lines 261-297) for
its outcome: fields are cut at `FIELD_REGEX` boundaries; only the `RA` arm
can fail (`parse_num_tuple_u16` mapped to `Error::MissingWidthHeight`); the
`NA`/`NU`/`DU` arms use `handle_opt_ires`/`handle_owned_opt_ires`, which
never fail or panic, and unknown fields are skipped with a warning. -/
def parse_general_parameters_outcome (record_data : List Char) : ParseOutcome :=
  go (boundaries_of (find_field_matches record_data) record_data.length)
where
  go : List (Nat × Nat) → ParseOutcome
    | [] => .ok
    | (start, stop) :: rest =>
      let field_name := slice record_data start (start + 2)
      let field_data := slice record_data (start + 3) stop
      if field_name = ['R', 'A'] then
        match parse_num_tuple_u16 field_data with
        | none => .errMissingWidthHeight
        | some _ => go rest
      else go rest

/-- Embeds the outcome of one arm of `parse` (serde/record.rs
lines 78-259).

* `IFM`: `handle_ires(map_res(digit1, parse::<u8>))` — a nom failure is a
  `panic!()` inside `handle_ires` (serde/utils.rs lines 20-32); a parsed
  value outside `{1,4,7}` is `Error::MissingDepth` via `Depth::try_from`.
* `CRR`: `record_data.split_once(['\r','\n']).expect("split CRR")` — a
  record body without a CR or LF panics.
* `BSB`: see `parse_general_parameters_outcome`.
* every other arm uses only `handle_opt_ires`/`handle_owned_opt_ires`
  (warn-and-`None` on failure) or `handle_ires` with the infallible
  `take_till` (the comment arm), so it returns `Ok(())`. -/
def parse_record_outcome (record : RecordId) (record_data : List Char) : ParseOutcome :=
  match record with
  | .IFM =>
    match parse_u8_digits record_data with
    | none => .panic "Received Nom error for required value"
    | some v => if v = 1 ∨ v = 4 ∨ v = 7 then .ok else .errMissingDepth
  | .CRR =>
    if record_data.any (fun c => c = '\r' || c = '\n') then .ok
    else .panic "split CRR"
  | .BSB => parse_general_parameters_outcome record_data
  | _ => .ok

/-- Embeds `impl FromStr for ImageHeader` (serde/mod.rs lines 372-395) for
its outcome: cut the input at `RECORD_REGEX` boundaries; a slice starting
with `!` is a comment; an unrecognised 3-letter identifier is warned about
and skipped; otherwise run the record's parse arm, stopping at the first
error (`parse(..)?`) — a panic aborts everything. -/
def image_header_from_str (input : String) : ParseOutcome :=
  go input.toList (boundaries_of (find_record_matches input.toList) input.toList.length)
where
  go (cs : List Char) : List (Nat × Nat) → ParseOutcome
    | [] => .ok
    | (start, stop) :: rest =>
      let record := if cs.getD start ' ' = '!' then RecordId.Comment
        else record_from_str (slice cs start (start + 3))
      if record = .unknown then go cs rest
      else
        let record_data := if record = .Comment then slice cs (start + 1) stop
          else slice cs (start + 4) stop
        match parse_record_outcome record record_data with
        | .ok => go cs rest
        | o => o

/-! Arithmetic bridges between the Rust bit operations and `Nat`
arithmetic. -/

theorem lor_eq_add {a b k : Nat} (ha : a % 2 ^ k = 0) (hb : b < 2 ^ k) :
    a ||| b = a + b := by
  obtain ⟨q, hq⟩ := Nat.dvd_of_mod_eq_zero ha
  subst hq
  exact (Nat.mul_add_lt_is_or hb q).symm

theorem and_128_of_lt {a : Nat} (h : a < 128) : a &&& 128 = 0 := by
  apply Nat.eq_of_testBit_eq
  intro i
  simp only [Nat.testBit_and, Nat.zero_testBit]
  have h128 : (128 : Nat) = 2 ^ 7 := by norm_num
  rcases eq_or_ne (7 : Nat) i with rfl | hi
  · have ha : a.testBit 7 = false := Nat.testBit_lt_two_pow (by omega)
    simp [ha]
  · rw [h128, Nat.testBit_two_pow_of_ne hi]
    simp

theorem add_128_and_128 {a : Nat} (h : a < 128) : (128 + a) &&& 128 = 128 := by
  apply Nat.eq_of_testBit_eq
  intro i
  simp only [Nat.testBit_and]
  have h128 : (128 : Nat) = 2 ^ 7 := by norm_num
  rcases eq_or_ne (7 : Nat) i with rfl | hi
  · rw [h128, Nat.testBit_two_pow_self, Nat.testBit_two_pow_add_eq]
    have ha : a.testBit 7 = false := Nat.testBit_lt_two_pow (by omega)
    simp [ha]
  · rw [h128, Nat.testBit_two_pow_of_ne hi]
    simp

theorem and_127_of_lt {a : Nat} (h : a < 128) : a &&& 127 = a := by
  have h127 : (127 : Nat) = 2 ^ 7 - 1 := by norm_num
  rw [h127, Nat.and_pow_two_sub_one_eq_mod, Nat.mod_eq_of_lt (by omega)]

theorem add_128_and_127 {a : Nat} (h : a < 128) : (128 + a) &&& 127 = a := by
  have h127 : (127 : Nat) = 2 ^ 7 - 1 := by norm_num
  rw [h127, Nat.and_pow_two_sub_one_eq_mod]
  omega

theorem add_and_mask {p nb m : Nat} (hp : p % 2 ^ m = 0) (hnb : nb < 2 ^ m) :
    (p + nb) &&& (2 ^ m - 1) = nb := by
  obtain ⟨q, hq⟩ := Nat.dvd_of_mod_eq_zero hp
  subst hq
  rw [Nat.and_pow_two_sub_one_eq_mod, Nat.mul_add_mod, Nat.mod_eq_of_lt hnb]

theorem shiftRight_lt_self {nb : Nat} (h : 0 < nb) : nb >>> 7 < nb := by
  rw [Nat.shiftRight_eq_div_pow]
  exact Nat.div_lt_self h (by norm_num)

/-! Unfolding `bsb_compress_nb` back into the shape of the Rust
recursion: the fuel of `bsb_compress_nb_go` is invisible as long as it is
at least `nb`. -/

theorem bsb_compress_nb_go_eq {max : Nat} :
    ∀ nb fuel, nb ≤ fuel → ∀ pixel,
      bsb_compress_nb_go max fuel nb pixel = bsb_compress_nb nb pixel max := by
  intro nb
  induction nb using Nat.strong_induction_on with
  | _ nb IH =>
    intro fuel hf pixel
    rcases Nat.lt_or_ge max nb with hgt | hle
    · have hpos : 0 < nb := by omega
      have hs : nb >>> 7 < nb := shiftRight_lt_self hpos
      obtain ⟨f, rfl⟩ : ∃ f, fuel = f + 1 := ⟨fuel - 1, by omega⟩
      obtain ⟨n, rfl⟩ : ∃ n, nb = n + 1 := ⟨nb - 1, by omega⟩
      have hb1 : (n + 1) >>> 7 ≤ f := by omega
      have hb2 : (n + 1) >>> 7 ≤ n := by omega
      rw [bsb_compress_nb]
      simp only [bsb_compress_nb_go, if_pos hgt]
      rw [IH _ hs f hb1, IH _ hs n hb2]
    · have hngt : ¬ nb > max := by omega
      cases fuel with
      | zero =>
        have : nb = 0 := by omega
        subst this
        rfl
      | succ f =>
        rw [bsb_compress_nb]
        cases nb with
        | zero => simp only [bsb_compress_nb_go, if_neg hngt]
        | succ n => simp only [bsb_compress_nb_go, if_neg hngt]

theorem compress_nb_of_le {nb pixel max : Nat} (h : nb ≤ max) :
    bsb_compress_nb nb pixel max = bsb_compress_nb_emit nb pixel := by
  have hngt : ¬ nb > max := by omega
  rw [bsb_compress_nb]
  cases nb with
  | zero => rfl
  | succ n => simp only [bsb_compress_nb_go, if_neg hngt]

theorem compress_nb_of_gt {nb pixel max : Nat} (h : nb > max) :
    bsb_compress_nb nb pixel max
      = bsb_compress_nb (nb >>> 7) (pixel ||| 0x80) max ++
        [(nb &&& 0x7F) ||| (pixel &&& 0x80)] := by
  obtain ⟨n, hn⟩ : ∃ n, nb = n + 1 := ⟨nb - 1, by omega⟩
  rw [bsb_compress_nb]
  conv_lhs => rw [hn]
  simp only [bsb_compress_nb_go, if_pos h, ← hn]
  rw [bsb_compress_nb_go_eq _ _ (by
    have := shiftRight_lt_self (show 0 < nb by omega)
    omega)]

theorem and_127_eq_mod (x : Nat) : x &&& 127 = x % 128 := by
  have h127 : (127 : Nat) = 2 ^ 7 - 1 := by norm_num
  rw [h127, Nat.and_pow_two_sub_one_eq_mod]

theorem two_pow_le_128 {m : Nat} (hm : m ≤ 7) : 2 ^ m ≤ 128 := by
  calc 2 ^ m ≤ 2 ^ 7 := Nat.pow_le_pow_right (by norm_num) hm
  _ = 128 := by norm_num

theorem p_add_lt_128 {p m nb : Nat} (hm : m ≤ 7) (hp : p < 128) (hpm : p % 2 ^ m = 0)
    (hnb : nb ≤ 2 ^ m - 1) : p + nb < 128 := by
  obtain ⟨q, rfl⟩ := Nat.dvd_of_mod_eq_zero hpm
  have h128 : (128 : Nat) = 2 ^ m * 2 ^ (7 - m) := by
    rw [← pow_add]
    have hmm : m + (7 - m) = 7 := by omega
    rw [hmm]
    norm_num
  have hq : q < 2 ^ (7 - m) := by
    by_contra hq
    push_neg at hq
    have := Nat.mul_le_mul_left (2 ^ m) hq
    omega
  have h1 : 2 ^ m * q + 2 ^ m ≤ 2 ^ m * 2 ^ (7 - m) := by
    calc 2 ^ m * q + 2 ^ m = 2 ^ m * (q + 1) := by ring
    _ ≤ 2 ^ m * 2 ^ (7 - m) := Nat.mul_le_mul_left _ (by omega)
  have h2 : 0 < 2 ^ m := Nat.two_pow_pos m
  omega

theorem mod_two_pow_add_128 {p m : Nat} (hm : m ≤ 7) (hpm : p % 2 ^ m = 0) :
    (128 + p) % 2 ^ m = 0 := by
  have hd : 2 ^ m ∣ 128 := by
    refine ⟨2 ^ (7 - m), ?_⟩
    rw [← pow_add]
    have hmm : m + (7 - m) = 7 := by omega
    rw [hmm]
    norm_num
  obtain ⟨q, rfl⟩ := Nat.dvd_of_mod_eq_zero hpm
  obtain ⟨r, hr⟩ := hd
  rw [hr, ← Nat.mul_add, Nat.mul_mod_right]

theorem shift_unfold {nb : Nat} (h : nb ≤ 65535) :
    ((nb >>> 7) <<< 7) % 65536 + nb % 128 = nb := by
  rw [Nat.shiftRight_eq_div_pow, Nat.shiftLeft_eq]
  have h1 : nb / 2 ^ 7 * 2 ^ 7 ≤ nb := Nat.div_mul_le_self _ _
  rw [Nat.mod_eq_of_lt (by omega)]
  have h2 : (2 : Nat) ^ 7 = 128 := by norm_num
  rw [h2]
  omega

theorem decompress_nb_loop_stop {c n : Nat} {str : List Nat} (h : c &&& 0x80 = 0) :
    decompress_nb_loop c n str = some (n, str) := by
  rw [decompress_nb_loop.eq_def, if_pos h]

theorem decompress_nb_loop_cons {c n c2 : Nat} {rest : List Nat} (h : c &&& 0x80 ≠ 0) :
    decompress_nb_loop c n (c2 :: rest)
      = decompress_nb_loop c2 ((n <<< 7) % 65536 + (c2 &&& 0x7F)) rest := by
  rw [decompress_nb_loop.eq_def, if_neg h]

theorem decompress_nb_loop_congr {c1 c2 : Nat} (h1 : c1 &&& 0x80 ≠ 0) (h2 : c2 &&& 0x80 ≠ 0)
    (n : Nat) (str : List Nat) : decompress_nb_loop c1 n str = decompress_nb_loop c2 n str := by
  cases str <;> simp [decompress_nb_loop, h1, h2]

/-- One multi-byte chain emitted with the continuation bit set (the
recursive calls of `bsb_compress_nb` pass `pixel | 0x80`) decodes as the
continuation of an ongoing `bsb_decompress_nb` whose running count is `nb`:
the core induction behind the count round trip.  `bd` is the chain's base
digit, which lands in the masked low bits of the first byte. -/
theorem nb_mid {m s : Nat} (hm : m ≤ 7) :
    ∀ nb, nb ≤ 65535 → ∀ p, p < 128 → p % 2 ^ m = 0 → ∀ (suffix : List Nat) (c0 : Nat),
      c0 &&& 0x80 ≠ 0 →
      ∃ bd, bd ≤ 2 ^ m - 1 ∧
        bsb_decompress_nb (bsb_compress_nb nb (p ||| 0x80) (2 ^ m - 1) ++ suffix) s
            (2 ^ m - 1)
          = (decompress_nb_loop c0 nb suffix).map
              (fun q => (q.1 + 1, min ((p ||| bd) >>> s) 255, q.2)) := by
  intro nb
  induction nb using Nat.strong_induction_on with
  | _ nb IH =>
    intro hnb65 p hp hpm suffix c0 hc0
    have hp0x80 : p ||| 0x80 = 128 + p := by
      rw [Nat.or_comm]
      exact lor_eq_add (k := 7) (by norm_num) hp
    rcases le_or_lt nb (2 ^ m - 1) with hle | hgt
    · -- base digit: a single byte `p | 0x80 | nb`, nonzero because of the 0x80
      refine ⟨nb, hle, ?_⟩
      have hpnb : p + nb < 128 := p_add_lt_128 hm hp hpm hle
      have hnb2m : nb < 2 ^ m := by
        have := Nat.two_pow_pos m
        omega
      have hbyte : (p ||| 0x80) ||| min nb 255 = 128 + (p + nb) := by
        rw [hp0x80]
        have hmin : min nb 255 = nb := by omega
        rw [hmin, lor_eq_add (k := m) (mod_two_pow_add_128 hm hpm) hnb2m]
        omega
      rw [compress_nb_of_le hle]
      simp only [bsb_compress_nb_emit, hbyte]
      rw [if_neg (by omega)]
      simp only [List.cons_append, List.nil_append, bsb_decompress_nb]
      rw [add_128_and_127 hpnb, add_and_mask hpm hnb2m,
        @decompress_nb_loop_congr _ c0 (by rw [add_128_and_128 hpnb]; norm_num) hc0,
        lor_eq_add hpm hnb2m]
    · -- continuation: recurse on `nb >> 7`, then one digit byte with bit 7 set
      have hpos : 0 < nb := by omega
      have hs7 : nb >>> 7 < nb := shiftRight_lt_self hpos
      have hself : (p ||| 0x80) ||| 0x80 = p ||| 0x80 := by
        rw [Nat.or_assoc, Nat.or_self]
      have hand : (p ||| 0x80) &&& 0x80 = 128 := by
        rw [hp0x80]
        exact add_128_and_128 hp
      have hdigit : (nb &&& 0x7F) ||| 128 = 128 + nb % 128 := by
        rw [and_127_eq_mod, Nat.or_comm]
        exact lor_eq_add (k := 7) (by norm_num) (Nat.mod_lt _ (by norm_num))
      rw [compress_nb_of_gt hgt, hself, hand, hdigit, List.append_assoc]
      obtain ⟨bd, hbd, hdec⟩ := IH (nb >>> 7) hs7 (by omega) p hp hpm
        ((128 + nb % 128) :: suffix) c0 hc0
      refine ⟨bd, hbd, ?_⟩
      rw [List.singleton_append, hdec]
      have hmod : nb % 128 < 128 := Nat.mod_lt _ (by norm_num)
      have hstep : decompress_nb_loop c0 (nb >>> 7) ((128 + nb % 128) :: suffix)
          = decompress_nb_loop c0 nb suffix := by
        rw [decompress_nb_loop, if_neg hc0]
        rw [add_128_and_127 hmod, shift_unfold hnb65]
        exact decompress_nb_loop_congr (by rw [add_128_and_128 hmod]; norm_num) hc0 _ _
      rw [hstep]

/-- Count round trip: the bytes `bsb_compress_nb nb p max` decode through
`bsb_decompress_nb` to the count `nb + 1` and the pixel bits `p` (plus the
base digit `bd ≤ max` in the low masked bits), consuming exactly those
bytes.  `max = 2 ^ m - 1` as at both call sites (`(1 << dec) - 1` and
`0x7F`). -/
theorem nb_roundtrip {m s : Nat} (hm : m ≤ 7) (nb p : Nat) (hnb : nb ≤ 65534)
    (hp : p < 128) (hpm : p % 2 ^ m = 0) (rest : List Nat) :
    ∃ bd, bd ≤ 2 ^ m - 1 ∧
      bsb_decompress_nb (bsb_compress_nb nb p (2 ^ m - 1) ++ rest) s (2 ^ m - 1)
        = some (nb + 1, min ((p ||| bd) >>> s) 255, rest) := by
  rcases le_or_lt nb (2 ^ m - 1) with hle | hgt
  · refine ⟨nb, hle, ?_⟩
    have hpnb : p + nb < 128 := p_add_lt_128 hm hp hpm hle
    have hnb2m : nb < 2 ^ m := by
      have := Nat.two_pow_pos m
      omega
    have hbyte : p ||| min nb 255 = p + nb := by
      have hmin : min nb 255 = nb := by omega
      rw [hmin, lor_eq_add hpm hnb2m]
    rw [compress_nb_of_le hle]
    simp only [bsb_compress_nb_emit, hbyte]
    by_cases h0 : p + nb = 0
    · -- the byte would be 0: a 0x80 guard byte precedes it
      have hp0 : p = 0 := by omega
      have hn0 : nb = 0 := by omega
      rw [if_pos h0, h0, hp0, hn0]
      have h128127 : (128 : Nat) &&& 127 = 0 := by norm_num [and_127_eq_mod]
      simp only [List.cons_append, bsb_decompress_nb, h128127]
      rw [decompress_nb_loop_cons (by norm_num), decompress_nb_loop_stop (by norm_num)]
      simp
    · rw [if_neg h0]
      simp only [List.cons_append, List.nil_append, bsb_decompress_nb]
      rw [and_127_of_lt hpnb, add_and_mask hpm hnb2m, lor_eq_add hpm hnb2m]
      rw [decompress_nb_loop_stop (and_128_of_lt hpnb)]
      rfl
  · have hpa : p &&& 0x80 = 0 := and_128_of_lt hp
    rw [compress_nb_of_gt hgt, hpa, Nat.or_zero, and_127_eq_mod, List.append_assoc]
    obtain ⟨bd, hbd, hdec⟩ := nb_mid hm (nb >>> 7)
      (by have := shiftRight_lt_self (show 0 < nb by omega); omega) p hp hpm
      ((nb % 128) :: rest) 0x80 (by norm_num)
    refine ⟨bd, hbd, ?_⟩
    rw [List.singleton_append, hdec]
    have hmod : nb % 128 < 128 := Nat.mod_lt _ (by norm_num)
    rw [decompress_nb_loop_cons (by norm_num), and_127_of_lt hmod, shift_unfold (by omega),
      decompress_nb_loop_stop (and_128_of_lt hmod)]
    rfl

/-! Properties of the run counter and of the deposit loops. -/

theorem getD_eq_get {l : List Nat} {i : Nat} (h : i < l.length) : l.getD i 0 = l[i] := by
  simp [List.getD_eq_getElem?_getD, List.getElem?_eq_getElem h]

theorem run_len_go_le (row : List Nat) (width_in last : Nat) :
    ∀ fuel i, run_len_go row width_in last fuel i ≤ fuel := by
  intro fuel
  induction fuel with
  | zero => intro i; simp [run_len_go]
  | succ f IH =>
    intro i
    rw [run_len_go]
    split
    · have := IH (i + 1)
      omega
    · omega

theorem run_len_go_spec (row : List Nat) (width_in last : Nat) :
    ∀ fuel i, fuel = width_in - i →
      ((∀ d, d < run_len_go row width_in last fuel i →
          i + d < width_in ∧ row.getD (i + d) 0 = last) ∧
        (width_in ≤ i + run_len_go row width_in last fuel i ∨
          row.getD (i + run_len_go row width_in last fuel i) 0 ≠ last)) := by
  intro fuel
  induction fuel with
  | zero =>
    intro i hf
    simp only [run_len_go]
    constructor
    · intro d hd
      omega
    · left
      omega
  | succ f IH =>
    intro i hf
    rw [run_len_go]
    split
    · rename_i hcond
      obtain ⟨IH1, IH2⟩ := IH (i + 1) (by omega)
      constructor
      · intro d hd
        cases d with
        | zero => simpa using hcond
        | succ d' =>
          have := IH1 d' (by omega)
          constructor
          · omega
          · have heq : i + (d' + 1) = i + 1 + d' := by omega
            rw [heq]
            exact this.2
      · have heq : i + (run_len_go row width_in last f (i + 1) + 1)
            = i + 1 + run_len_go row width_in last f (i + 1) := by omega
        rw [heq]
        exact IH2
    · rename_i hcond
      push_neg at hcond
      constructor
      · intro d hd
        omega
      · rcases Nat.lt_or_ge i width_in with hlt | hge
        · right
          simpa using hcond hlt
        · left
          omega

theorem run_len_le (row : List Nat) (width_in last i : Nat) :
    run_len row width_in last i ≤ width_in - i :=
  run_len_go_le row width_in last (width_in - i) i

theorem run_len_covers (row : List Nat) (width_in last i : Nat) :
    ∀ d, d < run_len row width_in last i → i + d < width_in ∧ row.getD (i + d) 0 = last :=
  (run_len_go_spec row width_in last (width_in - i) i rfl).1

theorem run_len_stop (row : List Nat) (width_in last i : Nat) :
    width_in ≤ i + run_len row width_in last i ∨
      row.getD (i + run_len row width_in last i) 0 ≠ last :=
  (run_len_go_spec row width_in last (width_in - i) i rfl).2

/-- A block of equal entries makes `drop` split into a `replicate` part and
the rest. -/
theorem drop_eq_replicate_append {row : List Nat} {last : Nat} :
    ∀ n i, i + n ≤ row.length → (∀ d, d < n → row.getD (i + d) 0 = last) →
      row.drop i = List.replicate n last ++ row.drop (i + n) := by
  intro n
  induction n with
  | zero =>
    intro i h1 h2
    simp
  | succ k IH =>
    intro i h1 h2
    have hi : i < row.length := by omega
    have h0 : row[i] = last := by
      have := h2 0 (by omega)
      rwa [Nat.add_zero, getD_eq_get hi] at this
    rw [List.drop_eq_getElem_cons hi, h0]
    have hrest := IH (i + 1) (by omega) (by
      intro d hd
      have := h2 (d + 1) (by omega)
      rwa [show i + (d + 1) = i + 1 + d by omega] at this)
    rw [hrest, show i + (k + 1) = i + 1 + k by omega, List.replicate_succ]
    simp

/-- The deposit loop `write_run` overwrites exactly the positions
`xout, …, xout + count - 1` with `v`. -/
theorem write_run_spec :
    ∀ (count : Nat) (buf : List Nat) (v xout : Nat), xout + count ≤ buf.length →
      write_run buf v xout count
        = (buf.take xout ++ List.replicate count v ++ buf.drop (xout + count),
            xout + count) := by
  intro count
  induction count with
  | zero =>
    intro buf v xout h
    simp [write_run, List.take_append_drop]
  | succ k IH =>
    intro buf v xout h
    have hx : xout < buf.length := by omega
    rw [write_run, IH _ _ _ (by simp; omega)]
    have hset : buf.set xout v = buf.take xout ++ v :: buf.drop (xout + 1) :=
      List.set_eq_take_cons_drop v hx
    have hlen : (buf.take xout ++ [v]).length = xout + 1 := by
      simp [List.length_take]
      omega
    rw [Prod.mk.injEq]
    constructor
    · rw [hset]
      have h1 : (buf.take xout ++ v :: buf.drop (xout + 1)).take (xout + 1)
          = buf.take xout ++ [v] := by
        have : buf.take xout ++ v :: buf.drop (xout + 1)
            = (buf.take xout ++ [v]) ++ buf.drop (xout + 1) := by simp
        rw [this, List.take_left' hlen]
      have h2 : (buf.take xout ++ v :: buf.drop (xout + 1)).drop (xout + 1 + k)
          = buf.drop (xout + (k + 1)) := by
        have : buf.take xout ++ v :: buf.drop (xout + 1)
            = (buf.take xout ++ [v]) ++ buf.drop (xout + 1) := by simp
        rw [this, show xout + 1 + k = (buf.take xout ++ [v]).length + k by omega,
          List.drop_append, List.drop_drop]
        congr 1
        omega
      rw [h1, h2, List.replicate_succ]
      simp
    · omega

/-- One iteration of the compressor's run loop in the `width_out =
width_in` configuration used by `into_file`: for widths up to `32767` the
`u16` doubling does not wrap, `width_out / (width_in << 1) = 0`, so the
output-stretching never pads and the iteration emits exactly one run. -/
theorem compress_row_loop_go_step {row : List Nat} {w cfuel i : Nat} (hi : i < w)
    (hle : w ≤ 32767) (dec max : Nat) :
    compress_row_loop_go row w w dec max (cfuel + 1) i i
      = (compress_row_loop_go row w w dec max cfuel
            (i + 1 + run_len row w (row.getD i 0) (i + 1))
            (i + 1 + run_len row w (row.getD i 0) (i + 1))).map
          (fun rest =>
            bsb_compress_nb (run_len row w (row.getD i 0) (i + 1))
              (min ((row.getD i 0) <<< dec) 255) max ++ rest) := by
  have h2w : (w <<< 1) % 65536 = 2 * w := by
    rw [Nat.shiftLeft_eq]
    have : w * 2 ^ 1 = 2 * w := by ring
    rw [this, Nat.mod_eq_of_lt (by omega)]
  have hdiv : w / (2 * w) = 0 := Nat.div_eq_of_lt (by omega)
  have h2wne : ¬ (2 * w = 0) := by omega
  have hxout : ¬ ((0 : Nat) > i + 1 + run_len row w (row.getD i 0) (i + 1)) := by omega
  have hzmin : min (0 : Nat) 65535 = 0 := by omega
  simp only [compress_row_loop_go, if_pos hi, h2w, if_neg h2wne, hdiv, Nat.mul_zero,
    hzmin, if_neg hxout]

/-- One iteration of the depth-7 deposit loop, driven by a successful
count decode. -/
theorem decompress_loop_seven_go_step {decin maxin df : Nat} {buf stream : List Nat}
    {iw xout : Nat} (hne : ¬ iw = 0) {count pixel : Nat} {rest : List Nat}
    (hdec : bsb_decompress_nb stream decin maxin = some (count, pixel, rest)) :
    decompress_loop_seven_go decin maxin (df + 1) buf stream iw xout
      = decompress_loop_seven_go decin maxin df (write_run buf pixel xout (min count iw)).1
          rest (iw - min count iw) (write_run buf pixel xout (min count iw)).2 := by
  simp only [decompress_loop_seven_go, if_neg hne, hdec]

/-- Joint induction for the depth-7 round trip: starting at pixel index
`i`, the compressor's runs decode back into positions `i, …, w - 1` of the
row buffer. -/
theorem roundtrip_loop_seven (row : List Nat) (w : Nat) (hw : w = row.length)
    (hwle : w ≤ 32767) (hpix : ∀ x ∈ row, x < 128) :
    ∀ k cfuel dfuel i buf extra, w - i = k → i ≤ w → w - i ≤ cfuel → w - i ≤ dfuel →
      buf.length = w →
      ∃ runs, compress_row_loop_go row w w 0 0 cfuel i i = some runs ∧
        decompress_loop_seven_go 0 0 dfuel buf (runs ++ extra) (w - i) i
          = some (buf.take i ++ row.drop i) := by
  intro k
  induction k using Nat.strong_induction_on with
  | _ k IH =>
    intro cfuel dfuel i buf extra hk hi hcf hdf hbuf
    rcases Nat.eq_or_lt_of_le hi with rfl | hilt
    · -- loop exit: everything up to `w` is already in place
      refine ⟨[], ?_, ?_⟩
      · cases cfuel with
        | zero => rfl
        | succ cf => simp [compress_row_loop_go]
      · have hz : i - i = 0 := by omega
        rw [hz]
        have hbt : buf.take i = buf := List.take_of_length_le (by omega)
        have hrd : row.drop i = [] := List.drop_of_length_le (by omega)
        cases dfuel with
        | zero => simp [decompress_loop_seven_go, hbt, hrd]
        | succ df => simp [decompress_loop_seven_go, hbt, hrd]
    · -- one run: compress emits it, decompress deposits it
      obtain ⟨cf, rfl⟩ : ∃ cf, cfuel = cf + 1 := ⟨cfuel - 1, by omega⟩
      obtain ⟨df, rfl⟩ : ∃ df, dfuel = df + 1 := ⟨dfuel - 1, by omega⟩
      set last := row.getD i 0 with hlast
      set rl := run_len row w last (i + 1) with hrl
      have hlast_mem : last ∈ row := by
        rw [hlast, getD_eq_get (by omega)]
        exact List.getElem_mem _
      have hlast128 : last < 128 := hpix _ hlast_mem
      have hrl_le : rl ≤ w - (i + 1) := run_len_le row w last (i + 1)
      have hi2 : i + 1 + rl ≤ w := by omega
      have hlt : w - (i + 1 + rl) < k := by omega
      set buf2 := buf.take i ++ List.replicate (rl + 1) last ++ buf.drop (i + 1 + rl)
        with hbuf2
      obtain ⟨runs', hcomp', hdec'⟩ := IH (w - (i + 1 + rl)) hlt cf df (i + 1 + rl)
        buf2 extra rfl (by omega) (by omega) (by omega)
        (by
          rw [hbuf2]
          simp [List.length_take, List.length_drop]
          omega)
      refine ⟨bsb_compress_nb rl (min (last <<< 0) 255) 0 ++ runs', ?_, ?_⟩
      · rw [compress_row_loop_go_step hilt hwle, hcomp']
        rfl
      · have hmin : min (last <<< 0) 255 = last := by
          rw [Nat.shiftLeft_eq]
          omega
        rw [hmin]
        obtain ⟨bd, hbd, hnbdec⟩ := nb_roundtrip (m := 0) (s := 0) (by omega) rl last
          (by omega) hlast128 (by omega) (runs' ++ extra)
        have e1 : (2 : Nat) ^ 0 - 1 = 0 := by norm_num
        rw [e1] at hbd hnbdec
        have hbd0 : bd = 0 := by omega
        subst hbd0
        have hlast_min : min last 255 = last := by omega
        rw [Nat.or_zero, Nat.shiftRight_zero, hlast_min] at hnbdec
        rw [List.append_assoc]
        rw [decompress_loop_seven_go_step (by omega) hnbdec]
        have hcmin : min (rl + 1) (w - i) = rl + 1 := by omega
        rw [hcmin]
        rw [write_run_spec (rl + 1) buf last i (by omega)]
        have hxe : i + (rl + 1) = i + 1 + rl := by omega
        rw [hxe]
        have hwidth : w - i - (rl + 1) = w - (i + 1 + rl) := by omega
        rw [hwidth, ← hbuf2, hdec']
        congr 1
        have htake : buf2.take (i + 1 + rl) = buf.take i ++ List.replicate (rl + 1) last := by
          rw [hbuf2]
          refine List.take_left' ?_
          simp [List.length_take]
          omega
        have hdropr : row.drop i = List.replicate (rl + 1) last ++ row.drop (i + 1 + rl) := by
          have := @drop_eq_replicate_append row last (rl + 1) i
            (by omega) ?_
          · rwa [show i + (rl + 1) = i + 1 + rl by omega] at this
          · intro d hd
            cases d with
            | zero => rw [Nat.add_zero, ← hlast]
            | succ d' =>
              have hcov := (run_len_covers row w last (i + 1) d' (by omega)).2
              rwa [show i + (d' + 1) = i + 1 + d' by omega]
        rw [htake, hdropr, List.append_assoc]

/-- One iteration of the depth-4 deposit loop, driven by a successful
count decode. -/
theorem decompress_loop_four_go_step {decin maxin df : Nat} {buf stream : List Nat}
    {iw xout : Nat} (hne : ¬ iw = 0) {count pixel : Nat} {rest : List Nat}
    (hdec : bsb_decompress_nb stream decin maxin = some (count, pixel, rest)) :
    decompress_loop_four_go decin maxin (df + 1) buf stream iw xout
      = decompress_loop_four_go decin maxin df
          (write_run buf (pixel &&& 0x0F) xout (min count iw)).1
          rest (iw - min count iw) (write_run buf (pixel &&& 0x0F) xout (min count iw)).2 := by
  simp only [decompress_loop_four_go, if_neg hne, hdec]

/-- Joint induction for the depth-4 round trip (`dec = 3`, `max = 7`,
deposit `pixel & 0x0F`). -/
theorem roundtrip_loop_four (row : List Nat) (w : Nat) (hw : w = row.length)
    (hwle : w ≤ 32767) (hpix : ∀ x ∈ row, x < 16) :
    ∀ k cfuel dfuel i buf extra, w - i = k → i ≤ w → w - i ≤ cfuel → w - i ≤ dfuel →
      buf.length = w →
      ∃ runs, compress_row_loop_go row w w 3 7 cfuel i i = some runs ∧
        decompress_loop_four_go 3 7 dfuel buf (runs ++ extra) (w - i) i
          = some (buf.take i ++ row.drop i) := by
  intro k
  induction k using Nat.strong_induction_on with
  | _ k IH =>
    intro cfuel dfuel i buf extra hk hi hcf hdf hbuf
    rcases Nat.eq_or_lt_of_le hi with rfl | hilt
    · refine ⟨[], ?_, ?_⟩
      · cases cfuel with
        | zero => rfl
        | succ cf => simp [compress_row_loop_go]
      · have hz : i - i = 0 := by omega
        rw [hz]
        have hbt : buf.take i = buf := List.take_of_length_le (by omega)
        have hrd : row.drop i = [] := List.drop_of_length_le (by omega)
        cases dfuel with
        | zero => simp [decompress_loop_four_go, hbt, hrd]
        | succ df => simp [decompress_loop_four_go, hbt, hrd]
    · obtain ⟨cf, rfl⟩ : ∃ cf, cfuel = cf + 1 := ⟨cfuel - 1, by omega⟩
      obtain ⟨df, rfl⟩ : ∃ df, dfuel = df + 1 := ⟨dfuel - 1, by omega⟩
      set last := row.getD i 0 with hlast
      set rl := run_len row w last (i + 1) with hrl
      have hlast_mem : last ∈ row := by
        rw [hlast, getD_eq_get (by omega)]
        exact List.getElem_mem _
      have hlast16 : last < 16 := hpix _ hlast_mem
      have hrl_le : rl ≤ w - (i + 1) := run_len_le row w last (i + 1)
      have hi2 : i + 1 + rl ≤ w := by omega
      have hlt : w - (i + 1 + rl) < k := by omega
      set buf2 := buf.take i ++ List.replicate (rl + 1) last ++ buf.drop (i + 1 + rl)
        with hbuf2
      obtain ⟨runs', hcomp', hdec'⟩ := IH (w - (i + 1 + rl)) hlt cf df (i + 1 + rl)
        buf2 extra rfl (by omega) (by omega) (by omega)
        (by
          rw [hbuf2]
          simp [List.length_take, List.length_drop]
          omega)
      have hshift : last <<< 3 = last * 8 := by
        rw [Nat.shiftLeft_eq]
      have hmin : min (last <<< 3) 255 = last <<< 3 := by
        rw [hshift]
        omega
      refine ⟨bsb_compress_nb rl (min (last <<< 3) 255) 7 ++ runs', ?_, ?_⟩
      · rw [compress_row_loop_go_step hilt hwle, hcomp']
        rfl
      · rw [hmin, hshift]
        obtain ⟨bd, hbd, hnbdec⟩ := nb_roundtrip (m := 3) (s := 3) (by omega) rl (last * 8)
          (by omega) (by omega) (by
            have : last * 8 % 2 ^ 3 = 0 := by omega
            simpa using this) (runs' ++ extra)
        have e1 : (2 : Nat) ^ 3 - 1 = 7 := by norm_num
        rw [e1] at hbd hnbdec
        have hor : last * 8 ||| bd = last * 8 + bd := by
          refine lor_eq_add (k := 3) ?_ (by simpa using (by omega : bd < 8))
          have : last * 8 % 2 ^ 3 = 0 := by omega
          simpa using this
        have hsr : (last * 8 + bd) >>> 3 = last := by
          rw [Nat.shiftRight_eq_div_pow]
          have h8 : (2 : Nat) ^ 3 = 8 := by norm_num
          rw [h8]
          omega
        have hpix_min : min last 255 = last := by omega
        rw [hor, hsr, hpix_min] at hnbdec
        have hand : last &&& 0x0F = last := by
          have h15 : (0x0F : Nat) = 2 ^ 4 - 1 := by norm_num
          rw [h15, Nat.and_pow_two_sub_one_eq_mod, Nat.mod_eq_of_lt (by omega)]
        rw [List.append_assoc]
        rw [decompress_loop_four_go_step (by omega) hnbdec]
        have hcmin : min (rl + 1) (w - i) = rl + 1 := by omega
        rw [hcmin, hand]
        rw [write_run_spec (rl + 1) buf last i (by omega)]
        have hxe : i + (rl + 1) = i + 1 + rl := by omega
        rw [hxe]
        have hwidth : w - i - (rl + 1) = w - (i + 1 + rl) := by omega
        rw [hwidth, ← hbuf2, hdec']
        congr 1
        have htake : buf2.take (i + 1 + rl) = buf.take i ++ List.replicate (rl + 1) last := by
          rw [hbuf2]
          refine List.take_left' ?_
          simp [List.length_take]
          omega
        have hdropr : row.drop i = List.replicate (rl + 1) last ++ row.drop (i + 1 + rl) := by
          have := @drop_eq_replicate_append row last (rl + 1) i
            (by omega) ?_
          · rwa [show i + (rl + 1) = i + 1 + rl by omega] at this
          · intro d hd
            cases d with
            | zero => rw [Nat.add_zero, ← hlast]
            | succ d' =>
              have hcov := (run_len_covers row w last (i + 1) d' (by omega)).2
              rwa [show i + (d' + 1) = i + 1 + d' by omega]
        rw [htake, hdropr, List.append_assoc]

/-! Claim C1: the compress/decompress round trip. -/

/-- Claim C1 as stated fails at depth 1: the depth-1 decompressor packs the
row into a bit stream (`buf[xout >> 3] |= pixel << (7 - (xout & 7))`)
instead of one byte per pixel.  The row `[1]` (length 1, byte `1 ≤ 2^1 - 1`)
compresses at depth 1 to `[0x80, 0x00, 0x40, 0x00]`, and the depth-1
decompressor turns those bytes into the buffer `[0x80]`, not `[1]`. -/
theorem claim_C1_counterexample :
    compress_bsb_row [1] 1 0 1 1 = some [0x80, 0x00, 0x40, 0x00] ∧
    decompress_bsb_row 1 [0] [0x80, 0x00, 0x40, 0x00] 1 = some (1, [128]) ∧
    [(128 : Nat)] ≠ [1] := by decide

/-- At `width_in = width_out = 32768` the compressor evaluates
`width_out / ((width_in << 1) as u16)` with a zero divisor (`32768 << 1`
wraps to 0 in `u16`), a Rust division-by-zero panic (modelled as `none`);
this is why the amended claim C1 stops at width 32767. -/
theorem compress_row_width_32768_panics (row : List Nat) (depth ln : Nat) :
    compress_bsb_row row depth ln 32768 32768 = none := by
  have h : ∀ fuel, 0 < fuel →
      compress_row_loop_go row 32768 32768 (7 - depth) ((1 <<< (7 - depth)) - 1)
        fuel 0 0 = none := by
    intro fuel hf
    obtain ⟨f, rfl⟩ : ∃ f, fuel = f + 1 := ⟨fuel - 1, by omega⟩
    simp only [compress_row_loop_go]
    rw [if_pos (by omega), if_pos (by rw [Nat.shiftLeft_eq])]
  simp only [compress_bsb_row, compress_row_loop]
  rw [h 32768 (by norm_num)]
  rfl

/-- Claim C1 (amended): for depth `d ∈ {4, 7}`, every non-empty row of
length at most 32767 whose bytes are below `2 ^ d`, and every line number
below 65535 (`into_file` uses the row index, bounded by the `u16` height),
compressing with `compress_bsb_row` (with `width_out = width_in`, as at the
only call site) and then decompressing with the depth-`d` row decompressor
into an all-zero buffer of the same length returns exactly the row,
together with the line number shifted by one (the decoder's count is
`stored + 1`). -/
theorem claim_C1_amended (d : Nat) (hd : d = 4 ∨ d = 7) (row : List Nat) (ln : Nat)
    (hrow : row ≠ []) (hwle : row.length ≤ 32767) (hpix : ∀ x ∈ row, x < 2 ^ d)
    (hln : ln ≤ 65534) :
    ∃ bytes, compress_bsb_row row d ln row.length row.length = some bytes ∧
      decompress_bsb_row d (List.replicate row.length 0) bytes row.length
        = some (ln + 1, row) := by
  rcases hd with rfl | rfl
  · -- depth 4: dec = 3, max = (1 <<< 3) - 1 = 7
    obtain ⟨runs, hcomp, hdec⟩ := roundtrip_loop_four row row.length rfl hwle
      (by simpa using hpix) row.length row.length row.length 0
      (List.replicate row.length 0) [0] (by omega) (by omega) (by omega) (by omega)
      (by simp)
    refine ⟨bsb_compress_nb ln 0 0x7F ++ runs ++ [0], ?_, ?_⟩
    · simp only [compress_bsb_row, compress_row_loop]
      rw [show (7 : Nat) - 4 = 3 from rfl, show (1 : Nat) <<< 3 - 1 = 7 from rfl, hcomp]
      rfl
    · obtain ⟨bd, hbd, hnb⟩ := nb_roundtrip (m := 7) (s := 0) (by omega) ln 0 hln
        (by omega) (by simp) (runs ++ [0])
      rw [show (2 : Nat) ^ 7 - 1 = 127 by norm_num] at hnb
      rw [List.append_assoc]
      simp only [decompress_bsb_row, hnb]
      rw [show (7 : Nat) - 4 = 3 from rfl, show (1 : Nat) <<< 3 - 1 = 7 from rfl]
      simp only [decompress_loop_four]
      rw [show row.length - 0 = row.length by omega] at hdec
      simp only [List.take_zero, List.drop_zero, List.nil_append] at hdec
      rw [hdec]
      rfl
  · -- depth 7: dec = 0, max = 0
    obtain ⟨runs, hcomp, hdec⟩ := roundtrip_loop_seven row row.length rfl hwle
      (by simpa using hpix) row.length row.length row.length 0
      (List.replicate row.length 0) [0] (by omega) (by omega) (by omega) (by omega)
      (by simp)
    refine ⟨bsb_compress_nb ln 0 0x7F ++ runs ++ [0], ?_, ?_⟩
    · simp only [compress_bsb_row, compress_row_loop]
      rw [show (7 : Nat) - 7 = 0 from rfl, show (1 : Nat) <<< 0 - 1 = 0 from rfl, hcomp]
      rfl
    · obtain ⟨bd, hbd, hnb⟩ := nb_roundtrip (m := 7) (s := 0) (by omega) ln 0 hln
        (by omega) (by simp) (runs ++ [0])
      rw [show (2 : Nat) ^ 7 - 1 = 127 by norm_num] at hnb
      rw [List.append_assoc]
      simp only [decompress_bsb_row, hnb]
      rw [show (7 : Nat) - 7 = 0 from rfl, show (1 : Nat) <<< 0 - 1 = 0 from rfl]
      simp only [decompress_loop_seven]
      rw [show row.length - 0 = row.length by omega] at hdec
      simp only [List.take_zero, List.drop_zero, List.nil_append] at hdec
      rw [hdec]
      rfl

/-- Witness for the amended claim C1 at a concrete input. -/
theorem claim_C1_witness :
    ∃ bytes, compress_bsb_row [1, 2, 2] 4 0 3 3 = some bytes ∧
      decompress_bsb_row 4 (List.replicate 3 0) bytes 3 = some (1, [1, 2, 2]) :=
  claim_C1_amended 4 (Or.inl rfl) [1, 2, 2] 0 (by decide) (by decide) (by decide)
    (by decide)

/-! Claim C2: structure of the written file's trailing index table. -/

/-- A compressed row always holds at least one byte (the terminating
`0x00`). -/
theorem compress_row_nonempty {row : List Nat} {depth ln wi wo : Nat} {b : List Nat}
    (h : compress_bsb_row row depth ln wi wo = some b) : 0 < b.length := by
  simp only [compress_bsb_row] at h
  cases hc : compress_row_loop row wi wo (7 - depth) ((1 <<< (7 - depth)) - 1) with
  | none =>
    rw [hc] at h
    simp at h
  | some runs =>
    rw [hc] at h
    simp only [Option.map_some', Option.some.injEq] at h
    subst h
    simp only [List.length_append, List.length_cons, List.length_nil]
    omega

/-- The row loop of `into_file` produces one compressed row per remaining
bitmap row, each nonempty. -/
theorem into_file_rows_go_spec (pixels : List Nat) (width height depth : Nat) :
    ∀ fuel i rows, height ≤ i + fuel →
      into_file_rows_go pixels width height depth fuel i = some rows →
      rows.length = height - i ∧ ∀ r ∈ rows, 0 < r.length := by
  intro fuel
  induction fuel with
  | zero =>
    intro i rows hb h
    simp only [into_file_rows_go, Option.some.injEq] at h
    subst h
    refine ⟨by simp only [List.length_nil]; omega, ?_⟩
    intro r hr
    exact absurd hr (List.not_mem_nil r)
  | succ f ih =>
    intro i rows hb h
    simp only [into_file_rows_go] at h
    by_cases hi : i < height
    · rw [if_pos hi] at h
      cases hc : compress_bsb_row (bitmap_row pixels width i) depth i width width with
      | none =>
        rw [hc] at h
        simp at h
      | some b =>
        rw [hc] at h
        cases hrec : into_file_rows_go pixels width height depth f (i + 1) with
        | none =>
          rw [hrec] at h
          simp at h
        | some rs =>
          rw [hrec] at h
          simp only [Option.map_some', Option.some.injEq] at h
          subst h
          obtain ⟨hlen, hpos⟩ := ih (i + 1) rs (by omega) hrec
          refine ⟨by simp only [List.length_cons, hlen]; omega, ?_⟩
          intro r hr
          rcases List.mem_cons.mp hr with rfl | hr2
          · exact compress_row_nonempty hc
          · exact hpos r hr2
    · rw [if_neg hi] at h
      simp only [Option.some.injEq] at h
      subst h
      refine ⟨by simp only [List.length_nil]; omega, ?_⟩
      intro r hr
      exact absurd hr (List.not_mem_nil r)

/-- `into_file_rows` yields exactly `height` nonempty compressed rows. -/
theorem into_file_rows_spec {pixels : List Nat} {width height depth : Nat}
    {rows : List (List Nat)}
    (h : into_file_rows pixels width height depth = some rows) :
    rows.length = height ∧ ∀ r ∈ rows, 0 < r.length := by
  obtain ⟨hl, hp⟩ :=
    into_file_rows_go_spec pixels width height depth height 0 rows (by omega) h
  exact ⟨by omega, hp⟩

/-- The captured-offset list has one entry per row plus the final/table
position. -/
theorem offsets_from_length : ∀ (rows : List (List Nat)) (pos : Nat),
    (offsets_from pos rows).length = rows.length + 1 := by
  intro rows
  induction rows with
  | nil =>
    intro pos
    rfl
  | cons r rs ih =>
    intro pos
    simp only [offsets_from, List.length_cons, ih]

theorem offsets_from_head : ∀ (rows : List (List Nat)) (pos : Nat),
    (offsets_from pos rows).head? = some pos := by
  intro rows pos
  cases rows <;> rfl

/-- With nonempty rows, the captured offsets are strictly increasing. -/
theorem offsets_from_chain : ∀ (rows : List (List Nat)) (pos : Nat),
    (∀ r ∈ rows, 0 < r.length) → List.Chain' (· < ·) (offsets_from pos rows) := by
  intro rows
  induction rows with
  | nil =>
    intro pos _
    exact List.chain'_singleton pos
  | cons r rs ih =>
    intro pos hp
    rw [offsets_from]
    apply List.chain'_cons'.mpr
    constructor
    · intro y hy
      rw [offsets_from_head] at hy
      simp only [Option.mem_def, Option.some.injEq] at hy
      subst hy
      have hr : 0 < r.length := hp r (by simp)
      omega
    · exact ih (pos + r.length) (fun x hx => hp x (by simp [hx]))

/-- The `i`-th captured offset is the base position plus the bytes of the
rows before row `i`. -/
theorem offsets_from_getD : ∀ (rows : List (List Nat)) (pos i : Nat), i ≤ rows.length →
    (offsets_from pos rows).getD i 0 = pos + ((rows.take i).flatten).length := by
  intro rows
  induction rows with
  | nil =>
    intro pos i hi
    have h0 : i = 0 := by simpa using hi
    subst h0
    rfl
  | cons r rs ih =>
    intro pos i hi
    cases i with
    | zero => rfl
    | succ j =>
      simp only [offsets_from, List.getD_cons_succ, List.take_succ_cons, List.flatten_cons,
        List.length_append]
      rw [ih (pos + r.length) j (by simpa using hi)]
      omega

/-- The offset list splits as the row offsets followed by the final (table
start) position. -/
theorem offsets_from_split : ∀ (rows : List (List Nat)) (pos : Nat),
    ∃ init, offsets_from pos rows = init ++ [pos + rows.flatten.length] ∧
      init.length = rows.length := by
  intro rows
  induction rows with
  | nil =>
    intro pos
    exact ⟨[], by simp [offsets_from], rfl⟩
  | cons r rs ih =>
    intro pos
    obtain ⟨init, hinit, hlen⟩ := ih (pos + r.length)
    refine ⟨pos :: init, ?_, by simp [hlen]⟩
    have ha : pos + r.length + rs.flatten.length = pos + ((r :: rs).flatten).length := by
      simp only [List.flatten_cons, List.length_append]
      omega
    rw [offsets_from, hinit, ha, List.cons_append]

theorem flatMap_congr_lemma : ∀ (l : List Nat) (f g : Nat → List Nat),
    (∀ a ∈ l, f a = g a) → l.flatMap f = l.flatMap g := by
  intro l f g
  induction l with
  | nil =>
    intro _
    rfl
  | cons a as ih =>
    intro h
    simp only [List.flatMap_cons]
    rw [h a (by simp), ih (fun o ho => h o (by simp [ho]))]

/-- When every offset fits in `u32`, the `unwrap_or(u32::MAX)` truncation is
the identity. -/
theorem flatMap_toBE32_min_eq (l : List Nat) (h : ∀ o ∈ l, o ≤ 4294967295) :
    l.flatMap (fun o => toBE32 (min o 4294967295)) = l.flatMap (fun o => toBE32 o) :=
  flatMap_congr_lemma l _ _ (fun a ha => by rw [min_eq_left (h a ha)])

theorem read_be32_at_quad (b0 b1 b2 b3 : Nat) :
    read_be32_at [b0, b1, b2, b3] 0
      = some (b0 * 16777216 + b1 * 65536 + b2 * 256 + b3) := rfl

theorem read_be32_at_cons (l : List Nat) (a n : Nat) :
    read_be32_at (a :: l) (n + 1) = read_be32_at l n := by
  by_cases h : n + 4 ≤ l.length
  · simp only [read_be32_at, List.length_cons, List.getD_cons_succ]
    rw [if_pos (by omega), if_pos h]
  · simp only [read_be32_at, List.length_cons, List.getD_cons_succ]
    rw [if_neg (by omega), if_neg h]

/-- Reading the last 4 bytes of `A ++ toBE32 T` as a big-endian `u32`
recovers `T` whenever `T` fits in `u32`. -/
theorem read_be32_at_last (A : List Nat) (T : Nat) (hT : T ≤ 4294967295) :
    read_be32_at (A ++ toBE32 T) ((A ++ toBE32 T).length - 4) = some T := by
  induction A with
  | nil =>
    simp only [List.nil_append]
    show read_be32_at (toBE32 T) 0 = some T
    rw [show toBE32 T
        = [(T >>> 24) % 256, (T >>> 16) % 256, (T >>> 8) % 256, T % 256] from rfl,
      read_be32_at_quad]
    congr 1
    rw [Nat.shiftRight_eq_div_pow, Nat.shiftRight_eq_div_pow, Nat.shiftRight_eq_div_pow]
    omega
  | cons a A ih =>
    have h4 : (toBE32 T).length = 4 := rfl
    have hlen : (a :: (A ++ toBE32 T)).length - 4 = ((A ++ toBE32 T).length - 4) + 1 := by
      simp only [List.length_cons, List.length_append, h4]
      omega
    rw [List.cons_append, hlen, read_be32_at_cons]
    exact ih

/-- Claim C2: when `into_file` succeeds and every captured offset fits in a
`u32`, the written file carries, after `height` compressed rows, a table of
`height + 1` big-endian `u32` values whose first `height` entries are the
file offsets of the first byte of each compressed row in row order and are
strictly increasing, and whose last entry — the final 4 bytes of the file —
is the file offset at which the table itself begins. -/
theorem claim_C2 (header_bytes : List Nat) (ifm : Depth) (width height : Nat)
    (pixels : List Nat) (rows : List (List Nat)) (file : List Nat)
    (hrows : into_file_rows pixels width height ifm.toU8 = some rows)
    (hfile : into_file header_bytes ifm width height pixels = some file)
    (hfit : ∀ o ∈ offsets_from (header_bytes.length + 3) rows, o ≤ 4294967295) :
    rows.length = height ∧
      (offsets_from (header_bytes.length + 3) rows).length = height + 1 ∧
      List.Chain' (· < ·) (offsets_from (header_bytes.length + 3) rows) ∧
      (∀ i, i < height →
        (file.drop ((offsets_from (header_bytes.length + 3) rows).getD i 0)).take
            (rows.getD i []).length
          = rows.getD i []) ∧
      read_be32_at file (file.length - 4)
        = some ((offsets_from (header_bytes.length + 3) rows).getD height 0) ∧
      file.drop ((offsets_from (header_bytes.length + 3) rows).getD height 0)
        = (offsets_from (header_bytes.length + 3) rows).flatMap (fun o => toBE32 o) := by
  obtain ⟨hrl, hrp⟩ := into_file_rows_spec hrows
  have h7 : ifm.toU8 ≤ 7 := by cases ifm <;> decide
  have hfileEq : file = header_bytes ++ [0x1A, 0x00, ifm.toU8] ++ rows.flatten ++
      (offsets_from (header_bytes.length + 3) rows).flatMap
        (fun o => toBE32 (min o 4294967295)) := by
    simp only [into_file, if_pos h7, hrows, Option.some.injEq] at hfile
    exact hfile.symm
  have hmin : (offsets_from (header_bytes.length + 3) rows).flatMap
        (fun o => toBE32 (min o 4294967295))
      = (offsets_from (header_bytes.length + 3) rows).flatMap (fun o => toBE32 o) :=
    flatMap_toBE32_min_eq _ hfit
  have hT : (offsets_from (header_bytes.length + 3) rows).getD height 0
      = header_bytes.length + 3 + rows.flatten.length := by
    rw [offsets_from_getD rows (header_bytes.length + 3) height (by omega),
      show rows.take height = rows from by rw [← hrl]; exact List.take_length rows]
  obtain ⟨init, hsplitoffs, hinitlen⟩ := offsets_from_split rows (header_bytes.length + 3)
  have hTle : header_bytes.length + 3 + rows.flatten.length ≤ 4294967295 := by
    refine hfit _ ?_
    rw [hsplitoffs]
    simp
  have htail : (offsets_from (header_bytes.length + 3) rows).flatMap (fun o => toBE32 o)
      = init.flatMap (fun o => toBE32 o)
        ++ toBE32 (header_bytes.length + 3 + rows.flatten.length) := by
    rw [hsplitoffs, List.flatMap_append]
    simp only [List.flatMap_cons, List.flatMap_nil, List.append_nil]
  refine ⟨hrl, ?_, ?_, ?_, ?_, ?_⟩
  · rw [offsets_from_length, hrl]
  · exact offsets_from_chain rows _ hrp
  · intro i hi
    have hi' : i < rows.length := by omega
    have hofs : (offsets_from (header_bytes.length + 3) rows).getD i 0
        = header_bytes.length + 3 + ((rows.take i).flatten).length :=
      offsets_from_getD rows (header_bytes.length + 3) i (by omega)
    have hsplit : rows.flatten = (rows.take i).flatten ++ (rows.drop i).flatten := by
      rw [← List.flatten_append, List.take_append_drop]
    have hfile2 : file = (header_bytes ++ [0x1A, 0x00, ifm.toU8] ++ (rows.take i).flatten)
        ++ ((rows.drop i).flatten ++
          (offsets_from (header_bytes.length + 3) rows).flatMap
            (fun o => toBE32 (min o 4294967295))) := by
      rw [hfileEq, hsplit]
      simp only [List.append_assoc]
    have hlen2 : (header_bytes ++ [0x1A, 0x00, ifm.toU8] ++ (rows.take i).flatten).length
        = header_bytes.length + 3 + ((rows.take i).flatten).length := by
      simp only [List.length_append, List.length_cons, List.length_nil]
    have hgd : rows.getD i [] = rows[i] := by
      rw [List.getD_eq_getElem?_getD, List.getElem?_eq_getElem hi']
      rfl
    rw [hgd, hofs, hfile2, ← hlen2, List.drop_left,
      List.drop_eq_getElem_cons hi', List.flatten_cons, List.append_assoc]
    exact List.take_left _ _
  · have hfile3 : file = (header_bytes ++ [0x1A, 0x00, ifm.toU8] ++ rows.flatten ++
        init.flatMap (fun o => toBE32 o))
        ++ toBE32 (header_bytes.length + 3 + rows.flatten.length) := by
      rw [hfileEq, hmin, htail, ← List.append_assoc]
    rw [hT, hfile3]
    exact read_be32_at_last _ _ hTle
  · have hlen4 : (header_bytes ++ [0x1A, 0x00, ifm.toU8] ++ rows.flatten).length
        = header_bytes.length + 3 + rows.flatten.length := by
      simp only [List.length_append, List.length_cons, List.length_nil]
    rw [hT, hfileEq, hmin, ← hlen4, List.drop_left]

/-- Witness for claim C2: a one-byte header, depth 4, and the 2×2 bitmap
`[1, 2, 3, 3]`. -/
theorem claim_C2_witness :
    ([[128, 0, 8, 16, 0], [1, 25, 0]] : List (List Nat)).length = 2 ∧
      (offsets_from (([65] : List Nat).length + 3)
          [[128, 0, 8, 16, 0], [1, 25, 0]]).length = 2 + 1 ∧
      List.Chain' (· < ·)
        (offsets_from (([65] : List Nat).length + 3) [[128, 0, 8, 16, 0], [1, 25, 0]]) ∧
      (∀ i, i < 2 →
        (([65, 26, 0, 4, 128, 0, 8, 16, 0, 1, 25, 0, 0, 0, 0, 4, 0, 0, 0, 9, 0, 0, 0,
              12] : List Nat).drop
              ((offsets_from (([65] : List Nat).length + 3)
                  [[128, 0, 8, 16, 0], [1, 25, 0]]).getD i 0)).take
            (([[128, 0, 8, 16, 0], [1, 25, 0]] : List (List Nat)).getD i []).length
          = ([[128, 0, 8, 16, 0], [1, 25, 0]] : List (List Nat)).getD i []) ∧
      read_be32_at [65, 26, 0, 4, 128, 0, 8, 16, 0, 1, 25, 0, 0, 0, 0, 4, 0, 0, 0, 9,
          0, 0, 0, 12]
          (([65, 26, 0, 4, 128, 0, 8, 16, 0, 1, 25, 0, 0, 0, 0, 4, 0, 0, 0, 9, 0, 0, 0,
            12] : List Nat).length - 4)
        = some ((offsets_from (([65] : List Nat).length + 3)
            [[128, 0, 8, 16, 0], [1, 25, 0]]).getD 2 0) ∧
      ([65, 26, 0, 4, 128, 0, 8, 16, 0, 1, 25, 0, 0, 0, 0, 4, 0, 0, 0, 9, 0, 0, 0,
          12] : List Nat).drop
          ((offsets_from (([65] : List Nat).length + 3)
              [[128, 0, 8, 16, 0], [1, 25, 0]]).getD 2 0)
        = (offsets_from (([65] : List Nat).length + 3)
            [[128, 0, 8, 16, 0], [1, 25, 0]]).flatMap (fun o => toBE32 o) :=
  claim_C2 [65] .Four 2 2 [1, 2, 3, 3] [[128, 0, 8, 16, 0], [1, 25, 0]]
    [65, 26, 0, 4, 128, 0, 8, 16, 0, 1, 25, 0, 0, 0, 0, 4, 0, 0, 0, 9, 0, 0, 0, 12]
    (by decide) (by decide) (by decide)

/-! Claim C6: index size validation. -/

/-- `read_be32_list` succeeds with a list of the requested length whenever
the requested window lies inside the file. -/
theorem read_be32_list_ok (file : List Nat) :
    ∀ count pos, pos + 4 * count ≤ file.length →
      ∃ l, read_be32_list file pos count = some l ∧ l.length = count := by
  intro count
  induction count with
  | zero =>
    intro pos _
    exact ⟨[], rfl, rfl⟩
  | succ c ih =>
    intro pos hb
    have h4 : pos + 4 ≤ file.length := by omega
    obtain ⟨l, hl, hlen⟩ := ih (pos + 4) (by omega)
    refine ⟨((file.getD pos 0) * 16777216 + (file.getD (pos + 1) 0) * 65536 +
      (file.getD (pos + 2) 0) * 256 + file.getD (pos + 3) 0) :: l, ?_, by simp [hlen]⟩
    simp only [read_be32_list, read_be32_at, if_pos h4, hl, Option.map_some']

/-- Claim C6 counterexample: in an 11-byte file whose index starts at
offset 0, `end − 4 − index_start = 7` is NOT divisible by 4, yet
`read_index` succeeds (with `7 / 4 = 1` entry), because the code checks
only the truncated quotient against the height, never divisibility. -/
theorem claim_C6_counterexample :
    (11 - 4 - 0) % 4 ≠ 0 ∧
      read_index [9, 9, 9, 9, 9, 9, 9, 0, 0, 0, 0] 1 = .ok ([151587081], 0) := by
  decide

/-- Claim C6 (amended): after reading the trailing big-endian u32
`index_start`, with `index_start` in range (at most `end − 4`, so the u64
subtraction does not wrap), `read_index` fails with `InvalidIndexSize`
exactly when the truncated quotient `(end − 4 − index_start) / 4` differs
from the header height; divisibility by 4 is NOT checked, and whenever the
quotient matches, an index of `height` entries is read.  An out-of-range
`index_start` (beyond `end − 4`) makes the u64 subtraction wrap and the
read always fails — it is never accepted. -/
theorem claim_C6_amended (file : List Nat) (height s : Nat)
    (h4 : 4 ≤ file.length) (hfl : file.length < 18446744073709551616)
    (hs : read_be32_at file (file.length - 4) = some s) :
    (s ≤ file.length - 4 → (file.length - 4 - s) / 4 ≠ height →
        read_index file height = .error .invalidIndexSize) ∧
      (s ≤ file.length - 4 → (file.length - 4 - s) / 4 = height →
        ∃ idx, read_index file height = .ok (idx, s) ∧ idx.length = height) ∧
      (file.length - 4 < s → s < 4294967296 →
        read_index file height = .error .invalidIndexSize ∨
          read_index file height = .error .ioEndOfStream) := by
  have hnl : ¬ file.length < 4 := by omega
  refine ⟨?_, ?_, ?_⟩
  · intro hsle hne
    have hdiff : (file.length - 4 + 18446744073709551616 - s) % 18446744073709551616
        = file.length - 4 - s := by omega
    have hne2 : ((file.length - 4 + 18446744073709551616 - s) % 18446744073709551616) / 4
        ≠ height := by rw [hdiff]; exact hne
    simp only [read_index, if_neg hnl, hs, if_pos hne2]
  · intro hsle heq
    have hdiff : (file.length - 4 + 18446744073709551616 - s) % 18446744073709551616
        = file.length - 4 - s := by omega
    have hcond : ¬ ((file.length - 4 + 18446744073709551616 - s) % 18446744073709551616)
        / 4 ≠ height := by rw [hdiff]; exact fun h => h heq
    rcases Nat.eq_zero_or_pos height with h0 | hpos
    · subst h0
      refine ⟨[], ?_, rfl⟩
      simp only [read_index, if_neg hnl, hs, if_neg hcond, read_be32_list]
    · obtain ⟨idx, hidx, hlen⟩ := read_be32_list_ok file height s (by omega)
      refine ⟨idx, ?_, hlen⟩
      simp only [read_index, if_neg hnl, hs, if_neg hcond, hidx]
  · intro hgt hs32
    have hd2 : (file.length - 4 + 18446744073709551616 - s) % 18446744073709551616
        = 18446744073709551616 - (s - (file.length - 4)) := by omega
    by_cases hq : (18446744073709551616 - (s - (file.length - 4))) / 4 ≠ height
    · left
      have hne2 : ((file.length - 4 + 18446744073709551616 - s) % 18446744073709551616)
          / 4 ≠ height := by rw [hd2]; exact hq
      simp only [read_index, if_neg hnl, hs, if_pos hne2]
    · right
      push_neg at hq
      have hh1 : 1 ≤ height := by omega
      obtain ⟨c, hc⟩ : ∃ c, height = c + 1 := ⟨height - 1, by omega⟩
      have hcond : ¬ ((file.length - 4 + 18446744073709551616 - s) % 18446744073709551616)
          / 4 ≠ height := by rw [hd2]; exact fun h => h hq
      have hoff : ¬ s + 4 ≤ file.length := by omega
      have hnone : read_be32_list file s height = none := by
        rw [hc]
        simp only [read_be32_list, read_be32_at, if_neg hoff]
      simp only [read_index, if_neg hnl, hs, if_neg hcond, hnone]

/-- Witness for the amended claim C6. -/
theorem claim_C6_witness :
    ((0 : Nat) ≤ 8 - 4 → (8 - 4 - 0) / 4 ≠ 1 →
        read_index [0, 0, 0, 1, 0, 0, 0, 0] 1 = .error .invalidIndexSize) ∧
      ((0 : Nat) ≤ 8 - 4 → (8 - 4 - 0) / 4 = 1 →
        ∃ idx, read_index [0, 0, 0, 1, 0, 0, 0, 0] 1 = .ok (idx, 0) ∧ idx.length = 1) ∧
      (8 - 4 < (0 : Nat) → (0 : Nat) < 4294967296 →
        read_index [0, 0, 0, 1, 0, 0, 0, 0] 1 = .error .invalidIndexSize ∨
          read_index [0, 0, 0, 1, 0, 0, 0, 0] 1 = .error .ioEndOfStream) :=
  claim_C6_amended [0, 0, 0, 1, 0, 0, 0, 0] 1 0 (by decide) (by decide) (by decide)

/-! Claim C7: bytes needed for a run of identical pixels.  A run of
`n` identical pixels is counted by `run_len` and handed to
`bsb_compress_nb` with `nb = n - 1` (compress.rs line 61:
`ipixel_out - ipixel_in - 1`). -/

/-- With count `nb ≤ maxin = 2^m − 1` (i.e. a run of up to `maxin + 1`
pixels), `bsb_compress_nb` emits exactly one byte for a nonzero pixel
value. -/
theorem compress_run_one_byte {m p nb : Nat} (hm : m ≤ 6) (hp1 : 1 ≤ p)
    (hnb : nb ≤ 2 ^ m - 1) :
    (bsb_compress_nb nb (p <<< m) (2 ^ m - 1)).length = 1 := by
  have hpos : 0 < 2 ^ m := by positivity
  have hle : 2 ^ m ≤ 64 := by
    calc 2 ^ m ≤ 2 ^ 6 := Nat.pow_le_pow_right (by norm_num) hm
    _ = 64 := by norm_num
  rw [compress_nb_of_le hnb]
  simp only [bsb_compress_nb_emit]
  have hmin : min nb 255 = nb := by omega
  have hor : p <<< m ||| min nb 255 = p * 2 ^ m + nb := by
    rw [hmin, Nat.shiftLeft_eq]
    exact lor_eq_add (Nat.mul_mod_left p (2 ^ m)) (by omega)
  have hppos : 0 < p * 2 ^ m := Nat.mul_pos (by omega) hpos
  rw [hor, if_neg (by omega)]
  rfl

/-- With count `nb = maxin + 1 = 2^m` (i.e. a run of `maxin + 2` pixels),
`bsb_compress_nb` emits exactly two bytes when the pixel fits the depth. -/
theorem compress_run_two_bytes {m p : Nat} (hm : m ≤ 6) (hp1 : 1 ≤ p)
    (hp2 : p < 2 ^ (7 - m)) :
    (bsb_compress_nb (2 ^ m) (p <<< m) (2 ^ m - 1)).length = 2 := by
  have hpos : 0 < 2 ^ m := by positivity
  have hle : 2 ^ m ≤ 64 := by
    calc 2 ^ m ≤ 2 ^ 6 := Nat.pow_le_pow_right (by norm_num) hm
    _ = 64 := by norm_num
  rw [compress_nb_of_gt (show 2 ^ m > 2 ^ m - 1 by omega)]
  have hsr : (2 ^ m) >>> 7 = 0 := by
    rw [Nat.shiftRight_eq_div_pow]
    exact Nat.div_eq_of_lt (by omega)
  rw [hsr, compress_nb_of_le (Nat.zero_le _)]
  simp only [bsb_compress_nb_emit]
  have hshlt : p <<< m < 2 ^ 7 := by
    rw [Nat.shiftLeft_eq]
    calc p * 2 ^ m < 2 ^ (7 - m) * 2 ^ m := (Nat.mul_lt_mul_right hpos).mpr hp2
    _ = 2 ^ 7 := by rw [← pow_add]; congr 1; omega
  have h128 : p <<< m ||| 128 = 128 + p <<< m := by
    rw [Nat.lor_comm]
    exact lor_eq_add (k := 7) (by norm_num) hshlt
  have hne0 : 128 + p <<< m ≠ 0 := by positivity
  rw [Nat.zero_min, Nat.or_zero, h128, if_neg hne0]
  rfl

/-- Claim C7 counterexample: at depth 1 (`maxin = 63`) a run of
`maxin + 1 = 64` identical pixels is stored with count `nb = 63 ≤ maxin`
and fits in a SINGLE byte — both at the count primitive and in a full
compressed row `[line, 0x7F, 0]` — whereas the claim says two bytes are
already needed at `maxin + 1`. -/
theorem claim_C7_counterexample :
    (bsb_compress_nb 63 (1 <<< 6) 63).length = 1 ∧
      compress_bsb_row (List.replicate 64 1) 1 1 64 64 = some [1, 127, 0] := by
  decide

/-- Claim C7 (amended): the count byte stores the run length MINUS ONE, so
for depth `d ∈ {1, 4, 7}` with `maxin = 2^(7−d) − 1` and a nonzero pixel
within depth, every run of `n` pixels with `1 ≤ n ≤ maxin + 1` is emitted
as one byte, and two bytes are first needed at `n = maxin + 2`. -/
theorem claim_C7_amended (d : Nat) (hd : d = 1 ∨ d = 4 ∨ d = 7) (p n : Nat)
    (hp1 : 1 ≤ p) (hp2 : p < 2 ^ d) :
    (1 ≤ n → n ≤ 2 ^ (7 - d) - 1 + 1 →
        (bsb_compress_nb (n - 1) (p <<< (7 - d)) (2 ^ (7 - d) - 1)).length = 1) ∧
      (n = 2 ^ (7 - d) - 1 + 2 →
        (bsb_compress_nb (n - 1) (p <<< (7 - d)) (2 ^ (7 - d) - 1)).length = 2) := by
  have hm : 7 - d ≤ 6 := by rcases hd with rfl | rfl | rfl <;> norm_num
  have h2 : 0 < 2 ^ (7 - d) := by positivity
  constructor
  · intro hn1 hn2
    exact compress_run_one_byte hm hp1 (by omega)
  · intro hn
    have hnb : n - 1 = 2 ^ (7 - d) := by omega
    rw [hnb]
    refine compress_run_two_bytes hm hp1 ?_
    have hdd : 7 - (7 - d) = d := by rcases hd with rfl | rfl | rfl <;> norm_num
    rw [hdd]
    exact hp2

/-- Witness for the amended claim C7: at depth 4 (`maxin = 7`), a run of
9 pixels of value 3 needs two bytes. -/
theorem claim_C7_witness :
    (1 ≤ 9 → 9 ≤ 2 ^ (7 - 4) - 1 + 1 →
        (bsb_compress_nb (9 - 1) (3 <<< (7 - 4)) (2 ^ (7 - 4) - 1)).length = 1) ∧
      (9 = 2 ^ (7 - 4) - 1 + 2 →
        (bsb_compress_nb (9 - 1) (3 <<< (7 - 4)) (2 ^ (7 - 4) - 1)).length = 2) :=
  claim_C7_amended 4 (Or.inr (Or.inl rfl)) 3 9 (by decide) (by decide)

/-! Claim C4: depth byte vs header IFM. -/

/-- Claim C4 counterexample: a file whose depth byte (1) differs from the
header's IFM depth (4) makes the read FAIL with the `ensure!` error — it
does not warn and proceed with the on-disk byte. -/
theorem claim_C4_counterexample :
    from_reader_model [0x1A, 0x00, 1] ⟨.Four, 1, 1⟩
      = .error (.ensureFailed "Kap image file must contain image depth") := by
  decide

/-- Claim C4 (amended): when the on-disk depth byte differs from the depth
declared by the header's IFM record, `from_reader` fails with the
`ensure!` error "Kap image file must contain image depth"; the raster
preamble does not win and no warning-and-continue happens. -/
theorem claim_C4_amended (file : List Nat) (hdr : HeaderInfo)
    (h : hdr.ifm.toU8 ≠ file.getD (read_until_pos file 0x00 (read_until_pos file 0x1A 0)) 0) :
    from_reader_model file hdr
      = .error (.ensureFailed "Kap image file must contain image depth") := by
  simp only [from_reader_model, if_pos h]

/-- Witness for the amended claim C4. -/
theorem claim_C4_witness :
    from_reader_model [0x1A, 0x00, 4] ⟨.One, 2, 2⟩
      = .error (.ensureFailed "Kap image file must contain image depth") :=
  claim_C4_amended [0x1A, 0x00, 4] ⟨.One, 2, 2⟩ (by decide)

/-! Claim C5: unsupported depth byte. -/

/-- Claim C5 counterexample: opening a file whose depth byte is 5 does not
return `Error::UnsupportedDepth(5)` (that variant is constructed nowhere in
the crate); the read fails earlier, at the header/preamble `ensure!`. -/
theorem claim_C5_counterexample :
    from_reader_model [0x1A, 0x00, 5, 9] ⟨.One, 1, 1⟩
        ≠ .error (.unsupportedDepth 5) ∧
      from_reader_model [0x1A, 0x00, 5, 9] ⟨.One, 1, 1⟩
        = .error (.ensureFailed "Kap image file must contain image depth") := by
  decide

/-- Claim C5 (amended): a file whose depth byte is 5 always fails to open,
but with the generic `ensure!` message "Kap image file must contain image
depth" (the header's IFM can only be 1, 4 or 7, which never equals 5), not
with `UnsupportedDepth(5)`. -/
theorem claim_C5_amended (file : List Nat) (hdr : HeaderInfo)
    (h5 : file.getD (read_until_pos file 0x00 (read_until_pos file 0x1A 0)) 0 = 5) :
    from_reader_model file hdr
      = .error (.ensureFailed "Kap image file must contain image depth") := by
  have hne : hdr.ifm.toU8
      ≠ file.getD (read_until_pos file 0x00 (read_until_pos file 0x1A 0)) 0 := by
    rw [h5]
    cases h : hdr.ifm <;> decide
  simp only [from_reader_model, if_pos hne]

/-- Witness for the amended claim C5. -/
theorem claim_C5_witness :
    from_reader_model [0x1A, 0x00, 5] ⟨.Seven, 3, 3⟩
      = .error (.ensureFailed "Kap image file must contain image depth") :=
  claim_C5_amended [0x1A, 0x00, 5] ⟨.Seven, 3, 3⟩ (by decide)

/-! Claim C8: `KapImageFile::new` dimension check. -/

/-- Claim C8: constructing a `KapImageFile` from a header with width `W`
and height `H` and a byte vector `b` returns `MismatchWidthHeight` exactly
when `b.len() ≠ W * H`, and on success the bitmap is exactly
`(W, H, b)`. -/
theorem claim_C8 (hdr : HeaderInfo) (b : List Nat) :
    (KapImageFile_new hdr b
        = .err (.mismatchWidthHeight (hdr.width, hdr.height) (hdr.width * hdr.height)
            b.length)
      ↔ b.length ≠ hdr.width * hdr.height) ∧
    (b.length = hdr.width * hdr.height →
      KapImageFile_new hdr b = .ok ⟨hdr, ⟨hdr.width, hdr.height, b⟩⟩) := by
  by_cases hne : b.length ≠ hdr.width * hdr.height
  · constructor
    · simp [KapImageFile_new, if_pos hne, hne]
    · intro heq
      exact absurd heq hne
  · push_neg at hne
    have hok : KapImageFile_new hdr b = .ok ⟨hdr, ⟨hdr.width, hdr.height, b⟩⟩ := by
      unfold KapImageFile_new BitMap.new
      rw [if_neg (fun h => h hne), if_neg (fun h => h hne.symm)]
    constructor
    · rw [hok]
      constructor
      · intro h
        exact absurd h (by simp)
      · intro h
        exact absurd hne h
    · intro _
      exact hok

/-- Witness for claim C8. -/
theorem claim_C8_witness :
    (KapImageFile_new ⟨.Four, 2, 3⟩ [1, 2, 3, 4, 5]
        = .err (.mismatchWidthHeight (2, 3) 6 5) ↔ (5 : Nat) ≠ 6) ∧
      ((5 : Nat) = 6 →
        KapImageFile_new ⟨.Four, 2, 3⟩ [1, 2, 3, 4, 5]
          = .ok ⟨⟨.Four, 2, 3⟩, ⟨2, 3, [1, 2, 3, 4, 5]⟩⟩) :=
  claim_C8 ⟨.Four, 2, 3⟩ [1, 2, 3, 4, 5]

/-! Claim C9: out-of-band signalling. -/

/-- Claim C9 counterexample: the header text "IFM/x" makes the parser
PANIC (`handle_ires` calls `panic!()` on the nom error from
`digit1`), so not every failure is reported as an error value. -/
theorem claim_C9_counterexample :
    image_header_from_str "IFM/x" = .panic "Received Nom error for required value" := by
  decide

/-- Claim C9 (amended): `KapImageFile::new` reports every failure as an
error value — the `panic!()` inside `BitMap::new` is unreachable through it
— but the header parser is NOT panic-free: a `CRR` record without a line
break (and an `IFM` record with a non-numeric value, see the
counterexample) panics. -/
theorem claim_C9_amended :
    (∀ (hdr : HeaderInfo) (b : List Nat), (KapImageFile_new hdr b).isPanic = false) ∧
      image_header_from_str "CRR/abc" = .panic "split CRR" := by
  constructor
  · intro hdr b
    by_cases hne : b.length ≠ hdr.width * hdr.height
    · simp [KapImageFile_new, if_pos hne, Outcome.isPanic]
    · push_neg at hne
      have hok : KapImageFile_new hdr b = .ok ⟨hdr, ⟨hdr.width, hdr.height, b⟩⟩ := by
        unfold KapImageFile_new BitMap.new
        rw [if_neg (fun h => h hne), if_neg (fun h => h hne.symm)]
      rw [hok]
      rfl
  · decide

/-! Claim C10: palette resolution. -/

/-- Claim C10: when the selected palette is present and long enough for
every pixel index, `as_palette_iter` yields exactly `width * height`
triples in buffer (row-major) order, mapping pixel index `i` to palette
entry `max(i, 1) - 1`; in particular the reserved index 0 resolves to the
first entry, like index 1. -/
theorem claim_C10 (pals : HeaderPalettes) (w h : Nat) (pixels : List Nat)
    (cp : ColorPalette) (rgbs : List (Nat × Nat × Nat))
    (hp : palette_of pals cp = some rgbs) (hwh : pixels.length = w * h)
    (hlen : ∀ p ∈ pixels, p - 1 < rgbs.length) :
    ∃ out, as_palette_iter pals pixels cp = .ok out ∧ out.length = w * h ∧
      ∀ i, i < pixels.length →
        out.getD i (0, 0, 0) = rgbs.getD (max (pixels.getD i 0) 1 - 1) (0, 0, 0) := by
  refine ⟨pixels.map (fun bsb_p => rgbs.getD (bsb_p - 1) (0, 0, 0)), ?_, ?_, ?_⟩
  · simp [as_palette_iter, hp]
  · simp [hwh]
  · intro i hi
    rw [List.getD_eq_getElem?_getD, List.getElem?_map,
      List.getD_eq_getElem?_getD (l := pixels), List.getElem?_eq_getElem hi]
    simp only [Option.map_some', Option.getD_some]
    congr 1
    omega

/-- Witness for claim C10. -/
theorem claim_C10_witness :
    ∃ out,
      as_palette_iter ⟨none, some [(10, 20, 30), (40, 50, 60)], none, none, none, none,
          none, none⟩ [0, 1, 2, 2] ColorPalette.Day = .ok out ∧
        out.length = 2 * 2 ∧
        ∀ i, i < ([0, 1, 2, 2] : List Nat).length →
          out.getD i (0, 0, 0)
            = ([(10, 20, 30), (40, 50, 60)] : List (Nat × Nat × Nat)).getD
                (max (([0, 1, 2, 2] : List Nat).getD i 0) 1 - 1) (0, 0, 0) :=
  claim_C10 ⟨none, some [(10, 20, 30), (40, 50, 60)], none, none, none, none, none, none⟩
    2 2 [0, 1, 2, 2] ColorPalette.Day [(10, 20, 30), (40, 50, 60)] rfl (by decide)
    (by decide)

end Chartr
